import Mathlib

/-!
Verification development for the GitOps-Time-Machine repository.

The definitions below are a shallow embedding of the Go source:

* `pkg/types`   — `Resource`, snapshots, drift reports (`types.go`);
* `pkg/analyzer` — `Compare`, `indexResources`, `compareResources`,
  `deepCompareMap` (`analyzer.go`);
* `pkg/versioner` — `Commit`, `FindCommitByTime`, checkout operations
  (`versioner.go`);
* `pkg/snapshotter` — `Write` / `cleanDirectory` (`snapshotter.go`);
* `pkg/timetravel` — `SnapshotByCommit` (`timetravel.go`);
* `pkg/collector` — namespace filtering in `Collect` (`collector.go`).

Modelling conventions.  Go `map[string]interface{}` values are embedded as
association lists `List (String × GoVal)`; a `GoVal` is either an opaque
non-map value (`prim`, carrying a rendering of the Go value, compared
atomically exactly as `reflect.DeepEqual` compares non-map values) or a
nested map (`mapV`).  A nilable Go map is `Option`-wrapped: `none` is the
nil map, `some m` a non-nil map with entries `m`; `reflect.DeepEqual`
distinguishes the two, which the embedding mirrors.  Go map iteration
order is unspecified; the embedding iterates association lists in list
order, a particular admissible order.  Wall-clock times are `Nat`.
-/

namespace GTM

/-- Embedding of a Go `interface{}` value as stored in the nested
`map[string]interface{}` documents (`spec`, `data`): either an opaque
non-map leaf or a (non-nil) string-keyed map. -/
inductive GoVal : Type where
  | prim (s : String)
  | mapV (m : List (String × GoVal))
deriving Repr

mutual
/-- Decidable structural equality for `GoVal`. -/
def GoVal.decEq : (a b : GoVal) → Decidable (a = b)
  | .prim a, .prim b =>
      if h : a = b then .isTrue (by rw [h]) else .isFalse (by intro hc; cases hc; exact h rfl)
  | .prim _, .mapV _ => .isFalse (by intro h; cases h)
  | .mapV _, .prim _ => .isFalse (by intro h; cases h)
  | .mapV m, .mapV n =>
      match GoVal.decEqList m n with
      | .isTrue h => .isTrue (by rw [h])
      | .isFalse h => .isFalse (by intro hc; cases hc; exact h rfl)

/-- Decidable structural equality for lists of `GoVal` bindings. -/
def GoVal.decEqList : (m n : List (String × GoVal)) → Decidable (m = n)
  | [], [] => .isTrue rfl
  | [], _ :: _ => .isFalse (by simp)
  | _ :: _, [] => .isFalse (by simp)
  | (k, v) :: r, (k', v') :: r' =>
      if h1 : k = k' then
        match GoVal.decEq v v' with
        | .isTrue h2 =>
          match GoVal.decEqList r r' with
          | .isTrue h3 => .isTrue (by rw [h1, h2, h3])
          | .isFalse h3 => .isFalse (by simp_all)
        | .isFalse h2 => .isFalse (by simp_all)
      else .isFalse (by simp_all)
end

instance : DecidableEq GoVal := GoVal.decEq

/-- Go map indexing `m[k]`: the value at key `k`, `none` when absent.
On association lists this finds the first binding; Go maps have unique
keys, so on images of Go maps this is exact. -/
def mapIndex : List (String × GoVal) → String → Option GoVal
  | [], _ => none
  | (k, v) :: rest, key => if k == key then some v else mapIndex rest key

theorem sizeOf_mapIndex {m : List (String × GoVal)} {k : String} {w : GoVal}
    (h : mapIndex m k = some w) : sizeOf w < sizeOf m := by
  induction m with
  | nil => simp [mapIndex] at h
  | cons kv rest ih =>
    obtain ⟨k', v⟩ := kv
    by_cases hk : (k' == k) = true
    · simp [mapIndex, hk] at h
      subst h
      simp
      omega
    · simp [mapIndex, hk] at h
      have := ih h
      simp
      omega

mutual
/-- Embedding of `reflect.DeepEqual` restricted to the values of
`GoVal`: non-map leaves compare atomically, maps compare as finite maps
(equal key sets, deeply equal values), irrespective of entry order. -/
def deepEqual : GoVal → GoVal → Bool
  | .prim a, .prim b => a == b
  | .mapV m1, .mapV m2 => deepSubmap m1 m2 && deepSubmap m2 m1
  | .prim _, .mapV _ => false
  | .mapV _, .prim _ => false
termination_by a b => sizeOf a + sizeOf b
decreasing_by
  all_goals simp
  all_goals omega

/-- Auxiliary one-sided check: every binding of the first map is present
in the second with a deeply equal value. -/
def deepSubmap : List (String × GoVal) → List (String × GoVal) → Bool
  | [], _ => true
  | (k, v) :: rest, m =>
    (match h : mapIndex m k with
     | some w => deepEqual v w
     | none => false) && deepSubmap rest m
termination_by l m => sizeOf l + sizeOf m
decreasing_by
  · have h1 := sizeOf_mapIndex h
    simp
    omega
  · simp
end

/-- Embedding of `reflect.DeepEqual` on a nilable Go
`map[string]interface{}`: a nil map equals only a nil map. -/
def deepEqualMapOpt : Option (List (String × GoVal)) → Option (List (String × GoVal)) → Bool
  | none, none => true
  | some m1, some m2 => deepSubmap m1 m2 && deepSubmap m2 m1
  | none, some _ => false
  | some _, none => false

/-- Go map indexing on a `map[string]string`. -/
def strMapIndex : List (String × String) → String → Option String
  | [], _ => none
  | (k, v) :: rest, key => if k == key then some v else strMapIndex rest key

/-- One-sided inclusion of string maps, value-exact. -/
def strMapSub (m1 m2 : List (String × String)) : Bool :=
  m1.all fun kv => strMapIndex m2 kv.1 == some kv.2

/-- Embedding of `reflect.DeepEqual` on a nilable Go `map[string]string`
(labels, annotations): nil equals only nil; non-nil maps compare as
finite maps. -/
def strMapDeepEqual : Option (List (String × String)) → Option (List (String × String)) → Bool
  | none, none => true
  | some m1, some m2 => strMapSub m1 m2 && strMapSub m2 m1
  | none, some _ => false
  | some _, none => false

/-- Embedding of `types.Resource` (pkg/types/types.go).  `ns` embeds the
Go field `Namespace` (empty string denotes cluster scope); `labels`,
`annotations`, `spec`, `data` are nilable Go maps.  The `Raw` field is
not consulted by the analyzer and is omitted. -/
structure Resource where
  apiVersion : String := ""
  kind : String := ""
  ns : String := ""
  name : String := ""
  labels : Option (List (String × String)) := none
  annotations : Option (List (String × String)) := none
  spec : Option (List (String × GoVal)) := none
  data : Option (List (String × GoVal)) := none
deriving Repr, DecidableEq

/-- Embedding of `Resource.FullName` (pkg/types/types.go): the
`namespace/kind/name` identifier, `kind/name` when cluster scoped. -/
def Resource.fullName (r : Resource) : String :=
  if r.ns == "" then r.kind ++ "/" ++ r.name
  else r.ns ++ "/" ++ r.kind ++ "/" ++ r.name

/-- Embedding of `types.FieldDiff`.  `OldValue`/`NewValue` hold Go
`interface{}` values; `none` embeds the zero (nil) interface value and,
for the whole-map label/annotation diffs, a nil map. -/
structure FieldDiff where
  path : String
  oldValue : Option GoVal := none
  newValue : Option GoVal := none
deriving Repr, DecidableEq

/-- Union of the key sets of two maps, in first-occurrence order — the
`allKeys` set built by `deepCompareMap` (analyzer.go:198-204), iterated
in a fixed admissible order. -/
def allKeysOf (b t : List (String × GoVal)) : List String :=
  (b.map Prod.fst ++ t.map Prod.fst).dedup

mutual
/-- Body of one iteration of the `allKeys` loop of `deepCompareMap`
(analyzer.go:206-235) for key `k`: key missing on one side emits a
one-sided diff; two nested maps recurse; otherwise `reflect.DeepEqual`
decides whether a leaf diff is emitted. -/
def perKeyDiff (pfx : String) (b t : List (String × GoVal)) (k : String) : List FieldDiff :=
  let path := pfx ++ "." ++ k
  match hb : mapIndex b k with
  | none => [{ path := path, newValue := mapIndex t k }]
  | some bv =>
    match ht : mapIndex t k with
    | none => [{ path := path, oldValue := some bv }]
    | some tv =>
      match bv, tv with
      | .mapV bm, .mapV tm => deepCompareKeys path bm tm (allKeysOf bm tm)
      | bv, tv => if deepEqual bv tv then [] else
          [{ path := path, oldValue := some bv, newValue := some tv }]
termination_by (sizeOf b + sizeOf t, 0)
decreasing_by
  have h1 := sizeOf_mapIndex hb
  have h2 := sizeOf_mapIndex ht
  simp at h1 h2
  apply Prod.Lex.left
  omega

/-- Loop of `deepCompareMap` over the union key set, concatenating the
per-key diffs. -/
def deepCompareKeys (pfx : String) (b t : List (String × GoVal)) : List String → List FieldDiff
  | [] => []
  | k :: ks => perKeyDiff pfx b t k ++ deepCompareKeys pfx b t ks
termination_by ks => (sizeOf b + sizeOf t, ks.length + 1)
decreasing_by
  · apply Prod.Lex.right
    simp
  · apply Prod.Lex.right
    simp
end

/-- Embedding of `deepCompareMap` (analyzer.go:191-238).  Two nil maps
short-circuit to no diffs; otherwise the union of the key sets is walked
(a nil map contributes no keys and misses every lookup, so it behaves as
empty from here on). -/
def deepCompareMap (pfx : String) (base target : Option (List (String × GoVal))) : List FieldDiff :=
  match base, target with
  | none, none => []
  | base, target =>
    let b := base.getD []
    let t := target.getD []
    deepCompareKeys pfx b t (allKeysOf b t)

/-- Encoding of a nilable Go `map[string]string` as the `interface{}`
value stored in a whole-map field diff. -/
def strMapVal (m : Option (List (String × String))) : Option GoVal :=
  m.map fun l => .mapV (l.map fun kv => (kv.1, .prim kv.2))

/-- Embedding of `compareResources` (analyzer.go:154-188): labels and
annotations are compared whole by `reflect.DeepEqual` and emit a single
whole-map diff when unequal; `spec` and `data`, when not deeply equal,
contribute the recursive keyed diffs of `deepCompareMap`. -/
def compareResources (base target : Resource) : List FieldDiff :=
  (if strMapDeepEqual base.labels target.labels then [] else
    [{ path := ".metadata.labels", oldValue := strMapVal base.labels,
       newValue := strMapVal target.labels }])
  ++ (if strMapDeepEqual base.annotations target.annotations then [] else
    [{ path := ".metadata.annotations", oldValue := strMapVal base.annotations,
       newValue := strMapVal target.annotations }])
  ++ (if deepEqualMapOpt base.spec target.spec then [] else
    deepCompareMap ".spec" base.spec target.spec)
  ++ (if deepEqualMapOpt base.data target.data then [] else
    deepCompareMap ".data" base.data target.data)

/-- Embedding of `types.SnapshotMetadata`. -/
structure SnapshotMetadata where
  timestamp : Nat := 0
  clusterName : String := ""
  context : String := ""
  resourceCount : Nat := 0
  namespaces : List String := []
  commitHash : String := ""
deriving Repr, DecidableEq

/-- Embedding of `types.ResourceSnapshot`. -/
structure ResourceSnapshot where
  metadata : SnapshotMetadata := {}
  resources : List Resource := []
deriving Repr, DecidableEq

/-- Embedding of `types.DriftType`, a Go string type with the three
constants `"ADDED"`, `"REMOVED"`, `"MODIFIED"`. -/
inductive DriftType : Type where
  | added
  | removed
  | modified
deriving Repr, DecidableEq

/-- The Go string value of a `DriftType` constant; the analyzer's sort
compares these strings with Go `<`. -/
def DriftType.str : DriftType → String
  | .added => "ADDED"
  | .removed => "REMOVED"
  | .modified => "MODIFIED"

/-- Embedding of `types.DriftEntry`. -/
structure DriftEntry where
  type : DriftType
  resource : Resource
  fieldDiffs : List FieldDiff := []
deriving Repr, DecidableEq

/-- Embedding of `types.DriftSummary`.  The four counts are naturals;
`unchangedResources` is an integer because the source computes it by
subtraction (analyzer.go:91). -/
structure DriftSummary where
  totalResources : Nat := 0
  addedResources : Nat := 0
  removedResources : Nat := 0
  modifiedResources : Nat := 0
  unchangedResources : Int := 0
deriving Repr, DecidableEq

/-- Embedding of `types.DriftReport`. -/
structure DriftReport where
  timestamp : Nat
  baseRef : String
  targetRef : String
  summary : DriftSummary := {}
  entries : List DriftEntry := []
deriving Repr, DecidableEq

/-- Go map insertion `index[k] = r`: overwrite the binding when the key
is present, otherwise add a binding (placed at the end, a particular
admissible iteration order for the resulting map). -/
def insertResource : List (String × Resource) → String → Resource → List (String × Resource)
  | [], k, r => [(k, r)]
  | (k', r') :: rest, k, r =>
    if k' == k then (k', r) :: rest else (k', r') :: insertResource rest k r

/-- Go map indexing on a resource index. -/
def idxLookup : List (String × Resource) → String → Option Resource
  | [], _ => none
  | (k, v) :: rest, key => if k == key then some v else idxLookup rest key

/-- Embedding of `indexResources` (analyzer.go:145-151): the map
`FullName → Resource` built by inserting every resource in list order
(a later resource with the same full name overwrites an earlier one). -/
def indexResources (resources : List Resource) : List (String × Resource) :=
  resources.foldl (fun index r => insertResource index r.fullName r) []

/-- Embedding of the `sort.Slice` less function of `Compare`
(analyzer.go:70-75): primary key the drift-type string, secondary key
the resource full name, both under Go string `<`. -/
def entryLess (x y : DriftEntry) : Bool :=
  if x.type.str ≠ y.type.str then decide (x.type.str < y.type.str)
  else decide (x.resource.fullName < y.resource.fullName)

/-- Total preorder fed to the sort: `x` may precede `y` when `y` is not
strictly less than `x`. -/
def entryLE (x y : DriftEntry) : Bool :=
  !(entryLess y x)

/-- REMOVED entries of `Compare` (analyzer.go:36-43): bindings of the
base index whose key is absent from the target index. -/
def removedEntriesOf (baseIndex targetIndex : List (String × Resource)) : List DriftEntry :=
  (baseIndex.filter fun kv => (idxLookup targetIndex kv.1).isNone).map
    fun kv => { type := DriftType.removed, resource := kv.2 : DriftEntry }

/-- ADDED entries of `Compare` (analyzer.go:46-53): bindings of the
target index whose key is absent from the base index. -/
def addedEntriesOf (baseIndex targetIndex : List (String × Resource)) : List DriftEntry :=
  (targetIndex.filter fun kv => (idxLookup baseIndex kv.1).isNone).map
    fun kv => { type := DriftType.added, resource := kv.2 : DriftEntry }

/-- MODIFIED entries of `Compare` (analyzer.go:56-67): bindings of the
base index whose key the target index also holds and whose
`compareResources` diffs are non-empty; the entry carries the target
resource and the diffs. -/
def modifiedEntriesOf (baseIndex targetIndex : List (String × Resource)) : List DriftEntry :=
  baseIndex.filterMap fun kv =>
    match idxLookup targetIndex kv.1 with
    | some targetRes =>
      let diffs := compareResources kv.2 targetRes
      if diffs.length > 0 then
        some { type := DriftType.modified, resource := targetRes, fieldDiffs := diffs : DriftEntry }
      else none
    | none => none

/-- Entry list of `Compare`: the three classifications concatenated and
sorted (analyzer.go:70-75). -/
def driftEntriesOf (baseIndex targetIndex : List (String × Resource)) : List DriftEntry :=
  (removedEntriesOf baseIndex targetIndex ++ addedEntriesOf baseIndex targetIndex
    ++ modifiedEntriesOf baseIndex targetIndex).mergeSort entryLE

/-- Summary-accumulation loop of `Compare` (analyzer.go:81-90), one
entry at a time. -/
def countEntries : List DriftEntry → DriftSummary → DriftSummary
  | [], s => s
  | e :: es, s =>
    countEntries es
      (match e.type with
       | .added => { s with addedResources := s.addedResources + 1 }
       | .removed => { s with removedResources := s.removedResources + 1 }
       | .modified => { s with modifiedResources := s.modifiedResources + 1 })

/-- Embedding of `Analyzer.Compare` (analyzer.go:24-100).  `now` is the
value of `time.Now().UTC()` at the invocation, an input of the
embedding.  REMOVED entries come from the base index, ADDED entries from
the target index, MODIFIED entries from the base index keys present in
both whose `compareResources` diffs are non-empty; entries are then
sorted and the summary counters accumulated from them, with
`unchangedResources` computed by subtraction (analyzer.go:91). -/
def Compare (now : Nat) (base target : ResourceSnapshot) : DriftReport :=
  let baseIndex := indexResources base.resources
  let targetIndex := indexResources target.resources
  let entries := driftEntriesOf baseIndex targetIndex
  let counted := countEntries entries { totalResources := targetIndex.length }
  { timestamp := now
    baseRef := base.metadata.commitHash
    targetRef := target.metadata.commitHash
    summary := { counted with unchangedResources :=
      (baseIndex.length : Int) - counted.removedResources - counted.modifiedResources }
    entries := entries }

/-- Embedding of `HasDrift` (analyzer.go:103-105). -/
def HasDrift (report : DriftReport) : Bool :=
  report.entries.length > 0

/-- Go-map semantics of a snapshot's resource list at a full name: the
last resource carrying that full name, exactly the binding
`indexResources` retains. -/
def lastWith (resources : List Resource) (n : String) : Option Resource :=
  resources.foldl (fun acc r => if r.fullName = n then some r else acc) none

/-- Set of distinct full names of a snapshot. -/
def snapNames (s : ResourceSnapshot) : Finset String :=
  (s.resources.map Resource.fullName).toFinset

theorem idxLookup_insert (idx : List (String × Resource)) (k key : String) (r : Resource) :
    idxLookup (insertResource idx k r) key = if k = key then some r else idxLookup idx key := by
  induction idx with
  | nil => by_cases h : k = key <;> simp [insertResource, idxLookup, h]
  | cons kv rest ih =>
    obtain ⟨k', r'⟩ := kv
    by_cases h1 : k' = k
    · by_cases h2 : k = key <;> simp [insertResource, idxLookup, h1, h2]
    · by_cases h2 : k' = key
      · subst h2
        have hkk : ¬k = k' := fun he => h1 he.symm
        simp [insertResource, idxLookup, h1, hkk]
      · simp [insertResource, idxLookup, h1, h2, ih]

theorem mem_keys_insert (idx : List (String × Resource)) (k key : String) (r : Resource) :
    key ∈ (insertResource idx k r).map Prod.fst ↔ key ∈ idx.map Prod.fst ∨ key = k := by
  induction idx with
  | nil => simp [insertResource, eq_comm]
  | cons kv rest ih =>
    obtain ⟨k', r'⟩ := kv
    by_cases h1 : k' = k
    · subst h1
      simp [insertResource]
      tauto
    · simp [insertResource, h1, ih]
      tauto

theorem keys_insert (idx : List (String × Resource)) (k : String) (r : Resource) :
    (insertResource idx k r).map Prod.fst =
      if k ∈ idx.map Prod.fst then idx.map Prod.fst else idx.map Prod.fst ++ [k] := by
  induction idx with
  | nil => simp [insertResource]
  | cons kv rest ih =>
    obtain ⟨k', r'⟩ := kv
    by_cases h1 : k' = k
    · simp [insertResource, h1]
    · have h2 : ¬k = k' := fun he => h1 he.symm
      by_cases h3 : k ∈ rest.map Prod.fst <;>
        simp [insertResource, h1, h2, h3, ih]

theorem nodup_keys_insert (idx : List (String × Resource)) (k : String) (r : Resource)
    (h : (idx.map Prod.fst).Nodup) : ((insertResource idx k r).map Prod.fst).Nodup := by
  rw [keys_insert]
  by_cases h1 : k ∈ idx.map Prod.fst
  · simpa [h1] using h
  · simp [h1]
    exact List.Nodup.append h (List.nodup_singleton k) (by simpa using h1)

theorem mem_insert_inv (idx : List (String × Resource)) (k : String) (r : Resource)
    (kv : String × Resource) (h : kv ∈ insertResource idx k r) : kv ∈ idx ∨ kv = (k, r) := by
  induction idx with
  | nil => simp [insertResource] at h; simp [h]
  | cons kv' rest ih =>
    obtain ⟨k', r'⟩ := kv'
    by_cases h1 : k' = k
    · subst h1
      simp [insertResource] at h
      rcases h with h | h
      · right; simp [h]
      · left; simp [h]
    · simp [insertResource, h1] at h
      rcases h with h | h
      · left; simp [h]
      · rcases ih h with h2 | h2
        · left; simp [h2]
        · right; exact h2

theorem idxLookup_foldl (rs : List Resource) (idx : List (String × Resource)) (n : String) :
    idxLookup (rs.foldl (fun index r => insertResource index r.fullName r) idx) n
      = rs.foldl (fun acc r => if r.fullName = n then some r else acc) (idxLookup idx n) := by
  induction rs generalizing idx with
  | nil => simp
  | cons r rs ih =>
    simp only [List.foldl_cons]
    rw [ih, idxLookup_insert]

theorem idxLookup_indexResources (rs : List Resource) (n : String) :
    idxLookup (indexResources rs) n = lastWith rs n := by
  have h := idxLookup_foldl rs [] n
  rw [indexResources, lastWith]
  exact h

theorem mem_keys_foldl (rs : List Resource) (idx : List (String × Resource)) (n : String) :
    n ∈ ((rs.foldl (fun index r => insertResource index r.fullName r) idx).map Prod.fst)
      ↔ n ∈ idx.map Prod.fst ∨ n ∈ rs.map Resource.fullName := by
  induction rs generalizing idx with
  | nil => simp
  | cons r rs ih =>
    simp only [List.foldl_cons]
    rw [ih, mem_keys_insert]
    simp
    tauto

theorem mem_keys_indexResources (rs : List Resource) (n : String) :
    n ∈ (indexResources rs).map Prod.fst ↔ n ∈ rs.map Resource.fullName := by
  have := mem_keys_foldl rs [] n
  simpa [indexResources] using this

theorem nodup_keys_foldl (rs : List Resource) (idx : List (String × Resource))
    (h : (idx.map Prod.fst).Nodup) :
    ((rs.foldl (fun index r => insertResource index r.fullName r) idx).map Prod.fst).Nodup := by
  induction rs generalizing idx with
  | nil => exact h
  | cons r rs ih =>
    simp only [List.foldl_cons]
    exact ih _ (nodup_keys_insert _ _ _ h)

theorem nodup_keys_indexResources (rs : List Resource) :
    ((indexResources rs).map Prod.fst).Nodup :=
  nodup_keys_foldl rs [] (by simp)

theorem key_eq_fullName_foldl (rs : List Resource) (idx : List (String × Resource))
    (h : ∀ kv ∈ idx, Prod.fst kv = (Prod.snd kv).fullName) :
    ∀ kv ∈ rs.foldl (fun index r => insertResource index r.fullName r) idx,
      Prod.fst kv = (Prod.snd kv).fullName := by
  induction rs generalizing idx with
  | nil => exact h
  | cons r rs ih =>
    simp only [List.foldl_cons]
    refine ih _ ?_
    intro kv hkv
    rcases mem_insert_inv _ _ _ _ hkv with h2 | h2
    · exact h kv h2
    · simp [h2]

theorem key_eq_fullName_indexResources (rs : List Resource) :
    ∀ kv ∈ indexResources rs, Prod.fst kv = (Prod.snd kv).fullName :=
  key_eq_fullName_foldl rs [] (by simp)

theorem idxLookup_eq_none_iff (l : List (String × Resource)) (n : String) :
    idxLookup l n = none ↔ n ∉ l.map Prod.fst := by
  induction l with
  | nil => simp [idxLookup]
  | cons kv rest ih =>
    obtain ⟨k, r⟩ := kv
    by_cases h : k = n
    · subst h
      simp [idxLookup]
    · simp [idxLookup, h, ih, Ne.symm h]

theorem idxLookup_of_mem (l : List (String × Resource)) (kv : String × Resource)
    (hnd : (l.map Prod.fst).Nodup) (h : kv ∈ l) : idxLookup l kv.1 = some kv.2 := by
  induction l with
  | nil => simp at h
  | cons kv' rest ih =>
    obtain ⟨k', r'⟩ := kv'
    rw [List.map_cons, List.nodup_cons] at hnd
    rcases List.mem_cons.mp h with h1 | h1
    · rw [h1]
      simp [idxLookup]
    · have hne : ¬k' = kv.1 := by
        intro he
        apply hnd.1
        rw [he]
        exact List.mem_map.mpr ⟨kv, h1, rfl⟩
      simp [idxLookup, hne]
      exact ih hnd.2 h1

theorem countEntries_total (entries : List DriftEntry) (init : DriftSummary) :
    (countEntries entries init).totalResources = init.totalResources := by
  induction entries generalizing init with
  | nil => rfl
  | cons e es ih =>
    rw [countEntries]
    cases he : e.type <;> simp [he, ih]

theorem countEntries_added (entries : List DriftEntry) (init : DriftSummary) :
    (countEntries entries init).addedResources =
      init.addedResources + entries.countP (fun e => e.type == DriftType.added) := by
  induction entries generalizing init with
  | nil => simp [countEntries]
  | cons e es ih =>
    rw [countEntries, List.countP_cons]
    cases he : e.type <;> simp [he, ih] <;> omega

theorem countEntries_removed (entries : List DriftEntry) (init : DriftSummary) :
    (countEntries entries init).removedResources =
      init.removedResources + entries.countP (fun e => e.type == DriftType.removed) := by
  induction entries generalizing init with
  | nil => simp [countEntries]
  | cons e es ih =>
    rw [countEntries, List.countP_cons]
    cases he : e.type <;> simp [he, ih] <;> omega

theorem countEntries_modified (entries : List DriftEntry) (init : DriftSummary) :
    (countEntries entries init).modifiedResources =
      init.modifiedResources + entries.countP (fun e => e.type == DriftType.modified) := by
  induction entries generalizing init with
  | nil => simp [countEntries]
  | cons e es ih =>
    rw [countEntries, List.countP_cons]
    cases he : e.type <;> simp [he, ih] <;> omega

theorem driftEntriesOf_perm (baseIndex targetIndex : List (String × Resource)) :
    (driftEntriesOf baseIndex targetIndex).Perm
      (removedEntriesOf baseIndex targetIndex ++ addedEntriesOf baseIndex targetIndex
        ++ modifiedEntriesOf baseIndex targetIndex) :=
  List.mergeSort_perm _ _

theorem countP_removedEntriesOf (baseIndex targetIndex : List (String × Resource))
    (ty : DriftType) :
    (removedEntriesOf baseIndex targetIndex).countP (fun e => e.type == ty) =
      if ty = DriftType.removed then (removedEntriesOf baseIndex targetIndex).length else 0 := by
  rw [removedEntriesOf, List.countP_map, List.length_map]
  cases ty <;> simp [List.countP_eq_length_filter, Function.comp_def]

theorem countP_addedEntriesOf (baseIndex targetIndex : List (String × Resource))
    (ty : DriftType) :
    (addedEntriesOf baseIndex targetIndex).countP (fun e => e.type == ty) =
      if ty = DriftType.added then (addedEntriesOf baseIndex targetIndex).length else 0 := by
  rw [addedEntriesOf, List.countP_map, List.length_map]
  cases ty <;> simp [List.countP_eq_length_filter, Function.comp_def]

theorem modifiedEntriesOf_type (baseIndex targetIndex : List (String × Resource)) :
    ∀ e ∈ modifiedEntriesOf baseIndex targetIndex, e.type = DriftType.modified := by
  intro e he
  rw [modifiedEntriesOf] at he
  rcases List.mem_filterMap.mp he with ⟨kv, _, hg⟩
  rcases hlk : idxLookup targetIndex kv.1 with _ | tr <;> rw [hlk] at hg
  · cases hg
  · by_cases hd : (compareResources kv.2 tr).length > 0
    · simp only [hd, if_true] at hg
      cases hg
      rfl
    · simp only [hd, if_false] at hg
      cases hg

theorem countP_modifiedEntriesOf (baseIndex targetIndex : List (String × Resource))
    (ty : DriftType) :
    (modifiedEntriesOf baseIndex targetIndex).countP (fun e => e.type == ty) =
      if ty = DriftType.modified then (modifiedEntriesOf baseIndex targetIndex).length else 0 := by
  have hall := modifiedEntriesOf_type baseIndex targetIndex
  rw [List.countP_eq_length_filter]
  by_cases hty : ty = DriftType.modified
  · subst hty
    rw [List.filter_eq_self.mpr fun e he => by simp [hall e he]]
    simp
  · have hnone : ∀ e ∈ modifiedEntriesOf baseIndex targetIndex,
        ¬((fun e => e.type == ty) e = true) := by
      intro e he
      simp [hall e he]
      exact fun hh => hty hh.symm
    rw [List.filter_eq_nil_iff.mpr hnone, if_neg hty]
    rfl

theorem lastWith_isSome_iff (rs : List Resource) (n : String) :
    (lastWith rs n).isSome ↔ n ∈ rs.map Resource.fullName := by
  rw [← idxLookup_indexResources]
  rcases h : idxLookup (indexResources rs) n with _ | r
  · rw [idxLookup_eq_none_iff] at h
    rw [← mem_keys_indexResources]
    simpa using h
  · have h2 : n ∈ (indexResources rs).map Prod.fst := by
      by_contra hc
      rw [← idxLookup_eq_none_iff] at hc
      rw [h] at hc
      cases hc
    rw [← mem_keys_indexResources]
    simpa using h2

/-- Content comparison at a full name, as the analyzer sees it: the
resources the two indexes hold at `n` (last occurrence wins, matching Go
map insertion) have a non-empty `compareResources` diff list. -/
def contentDiffers (base target : ResourceSnapshot) (n : String) : Bool :=
  match lastWith base.resources n, lastWith target.resources n with
  | some br, some tr => !(compareResources br tr).isEmpty
  | _, _ => false

theorem filter_key_map_fst (l : List (String × Resource)) (Q : String → Bool) :
    (l.filter fun kv => Q kv.1).map Prod.fst = (l.map Prod.fst).filter Q := by
  induction l with
  | nil => rfl
  | cons kv rest ih =>
    by_cases h : Q kv.1 <;> simp [h, ih]

theorem toFinset_keys_indexResources (rs : List Resource) :
    ((indexResources rs).map Prod.fst).toFinset = (rs.map Resource.fullName).toFinset := by
  ext n
  rw [List.mem_toFinset, List.mem_toFinset, mem_keys_indexResources]

theorem length_indexResources (rs : List Resource) :
    (indexResources rs).length = ((rs.map Resource.fullName).toFinset).card := by
  have h1 : (indexResources rs).length = ((indexResources rs).map Prod.fst).length :=
    (List.length_map _ _).symm
  rw [h1, ← List.toFinset_card_of_nodup (nodup_keys_indexResources rs),
    toFinset_keys_indexResources]

theorem length_filter_key (rs : List Resource) (Q : String → Bool) :
    ((indexResources rs).filter fun kv => Q kv.1).length =
      (((rs.map Resource.fullName).toFinset).filter fun n => Q n).card := by
  rw [← List.length_map _ Prod.fst, filter_key_map_fst]
  rw [← List.toFinset_card_of_nodup ((nodup_keys_indexResources rs).filter Q),
    List.toFinset_filter, toFinset_keys_indexResources]

theorem length_removedEntriesOf (base target : ResourceSnapshot) :
    (removedEntriesOf (indexResources base.resources) (indexResources target.resources)).length
      = ((snapNames base) \ (snapNames target)).card := by
  rw [removedEntriesOf, List.length_map, length_filter_key base.resources
    (fun n => (idxLookup (indexResources target.resources) n).isNone)]
  congr 1
  ext n
  simp only [Finset.mem_filter, Finset.mem_sdiff, List.mem_toFinset, snapNames,
    Option.isNone_iff_eq_none, idxLookup_eq_none_iff, mem_keys_indexResources]

theorem length_addedEntriesOf (base target : ResourceSnapshot) :
    (addedEntriesOf (indexResources base.resources) (indexResources target.resources)).length
      = ((snapNames target) \ (snapNames base)).card := by
  rw [addedEntriesOf, List.length_map, length_filter_key target.resources
    (fun n => (idxLookup (indexResources base.resources) n).isNone)]
  congr 1
  ext n
  simp only [Finset.mem_filter, Finset.mem_sdiff, List.mem_toFinset, snapNames,
    Option.isNone_iff_eq_none, idxLookup_eq_none_iff, mem_keys_indexResources]

theorem length_filterMap_eq_countP {α β : Type} (g : α → Option β) (l : List α) :
    (l.filterMap g).length = l.countP fun x => (g x).isSome := by
  induction l with
  | nil => rfl
  | cons x xs ih =>
    rcases hx : g x with _ | y <;>
      simp [List.filterMap_cons, hx, ih, List.countP_cons]

theorem length_modifiedEntriesOf (base target : ResourceSnapshot) :
    (modifiedEntriesOf (indexResources base.resources) (indexResources target.resources)).length
      = (((snapNames base) ∩ (snapNames target)).filter
          fun n => contentDiffers base target n).card := by
  rw [modifiedEntriesOf, length_filterMap_eq_countP, List.countP_eq_length_filter]
  have hcongr : ((indexResources base.resources).filter fun kv =>
      (match idxLookup (indexResources target.resources) kv.1 with
        | some targetRes =>
          let diffs := compareResources kv.2 targetRes
          if diffs.length > 0 then
            some { type := DriftType.modified, resource := targetRes,
                   fieldDiffs := diffs : DriftEntry }
          else none
        | none => none).isSome)
      = (indexResources base.resources).filter fun kv => contentDiffers base target kv.1 := by
    apply List.filter_congr
    intro kv hkv
    have hbase : lastWith base.resources kv.1 = some kv.2 := by
      rw [← idxLookup_indexResources]
      exact idxLookup_of_mem _ _ (nodup_keys_indexResources _) hkv
    rcases hlk : idxLookup (indexResources target.resources) kv.1 with _ | tr
    · rw [idxLookup_indexResources] at hlk
      simp [contentDiffers, hlk, hbase]
    · rw [idxLookup_indexResources] at hlk
      rcases hd : compareResources kv.2 tr with _ | ⟨d, ds⟩ <;>
        simp [contentDiffers, hlk, hbase, hd]
  rw [hcongr, length_filter_key base.resources (fun n => contentDiffers base target n)]
  congr 1
  ext n
  simp only [Finset.mem_filter, Finset.mem_inter, List.mem_toFinset, snapNames]
  constructor
  · rintro ⟨hmem, hcd⟩
    refine ⟨⟨hmem, ?_⟩, hcd⟩
    rcases hlt : lastWith target.resources n with _ | tr
    · rw [contentDiffers, hlt] at hcd
      rcases lastWith base.resources n with _ | br <;> simp at hcd
    · rw [← lastWith_isSome_iff, hlt]
      rfl
  · rintro ⟨⟨hmem, _⟩, hcd⟩
    exact ⟨hmem, hcd⟩

/-- The claim C1 reading of the summary: full-name sets compared as
finite sets, entry content at a name given by the index semantics. -/
theorem compare_summary_counters (now : Nat) (base target : ResourceSnapshot) :
    (Compare now base target).summary.totalResources = (snapNames target).card ∧
    (Compare now base target).summary.addedResources
      = ((snapNames target) \ (snapNames base)).card ∧
    (Compare now base target).summary.removedResources
      = ((snapNames base) \ (snapNames target)).card ∧
    (Compare now base target).summary.modifiedResources
      = (((snapNames base) ∩ (snapNames target)).filter
          fun n => contentDiffers base target n).card ∧
    (Compare now base target).summary.unchangedResources
      = ((snapNames base).card : Int)
        - (Compare now base target).summary.removedResources
        - (Compare now base target).summary.modifiedResources := by
  have hperm := driftEntriesOf_perm (indexResources base.resources)
    (indexResources target.resources)
  have hcount : ∀ ty : DriftType,
      (driftEntriesOf (indexResources base.resources)
        (indexResources target.resources)).countP (fun e => e.type == ty)
      = (removedEntriesOf (indexResources base.resources)
          (indexResources target.resources)).countP (fun e => e.type == ty)
        + (addedEntriesOf (indexResources base.resources)
            (indexResources target.resources)).countP (fun e => e.type == ty)
        + (modifiedEntriesOf (indexResources base.resources)
            (indexResources target.resources)).countP (fun e => e.type == ty) := by
    intro ty
    rw [hperm.countP_eq, List.countP_append, List.countP_append]
  refine ⟨?_, ?_, ?_, ?_, ?_⟩
  · simp only [Compare, countEntries_total]
    rw [length_indexResources]
    rfl
  · simp only [Compare, countEntries_added, hcount, countP_removedEntriesOf,
      countP_addedEntriesOf, countP_modifiedEntriesOf]
    simp [length_addedEntriesOf]
  · simp only [Compare, countEntries_removed, hcount, countP_removedEntriesOf,
      countP_addedEntriesOf, countP_modifiedEntriesOf]
    simp [length_removedEntriesOf]
  · simp only [Compare, countEntries_modified, hcount, countP_removedEntriesOf,
      countP_addedEntriesOf, countP_modifiedEntriesOf]
    simp [length_modifiedEntriesOf]
  · simp only [Compare]
    rw [length_indexResources]
    rfl

theorem mem_removedEntriesOf {bi ti : List (String × Resource)} {e : DriftEntry}
    (h : e ∈ removedEntriesOf bi ti) : e.type = DriftType.removed ∧ e.fieldDiffs = [] := by
  rw [removedEntriesOf] at h
  rcases List.mem_map.mp h with ⟨kv, _, he⟩
  rw [← he]
  exact ⟨rfl, rfl⟩

theorem mem_addedEntriesOf {bi ti : List (String × Resource)} {e : DriftEntry}
    (h : e ∈ addedEntriesOf bi ti) : e.type = DriftType.added ∧ e.fieldDiffs = [] := by
  rw [addedEntriesOf] at h
  rcases List.mem_map.mp h with ⟨kv, _, he⟩
  rw [← he]
  exact ⟨rfl, rfl⟩

theorem mem_modifiedEntriesOf {bi ti : List (String × Resource)} {e : DriftEntry}
    (h : e ∈ modifiedEntriesOf bi ti) : e.type = DriftType.modified ∧ e.fieldDiffs ≠ [] := by
  rw [modifiedEntriesOf] at h
  rcases List.mem_filterMap.mp h with ⟨kv, _, hg⟩
  rcases hlk : idxLookup ti kv.1 with _ | tr <;> rw [hlk] at hg
  · cases hg
  · by_cases hd : (compareResources kv.2 tr).length > 0
    · simp only [hd, if_true] at hg
      cases hg
      refine ⟨rfl, ?_⟩
      intro hc
      have hc2 : compareResources kv.2 tr = [] := hc
      rw [hc2] at hd
      simp at hd
    · simp only [hd, if_false] at hg
      cases hg

/-- The claim C9 invariant: in every report, a MODIFIED entry carries a
non-empty field-diff list, and ADDED and REMOVED entries carry an empty
one. -/
theorem drift_entry_fieldDiffs_invariant (now : Nat) (base target : ResourceSnapshot)
    (e : DriftEntry) (he : e ∈ (Compare now base target).entries) :
    (e.type = DriftType.modified → e.fieldDiffs ≠ []) ∧
    ((e.type = DriftType.added ∨ e.type = DriftType.removed) → e.fieldDiffs = []) := by
  have hmem : e ∈ removedEntriesOf (indexResources base.resources)
        (indexResources target.resources)
      ++ addedEntriesOf (indexResources base.resources) (indexResources target.resources)
      ++ modifiedEntriesOf (indexResources base.resources) (indexResources target.resources) := by
    refine (driftEntriesOf_perm _ _).mem_iff.mp ?_
    simpa [Compare] using he
  rcases List.mem_append.mp hmem with hmem2 | hmod
  · rcases List.mem_append.mp hmem2 with hrem | hadd
    · rcases mem_removedEntriesOf hrem with ⟨hty, hfd⟩
      exact ⟨fun hc => absurd (hty ▸ hc) (by simp), fun _ => hfd⟩
    · rcases mem_addedEntriesOf hadd with ⟨hty, hfd⟩
      exact ⟨fun hc => absurd (hty ▸ hc) (by simp), fun _ => hfd⟩
  · rcases mem_modifiedEntriesOf hmod with ⟨hty, hfd⟩
    refine ⟨fun _ => hfd, fun hc => ?_⟩
    rcases hc with hc | hc <;> rw [hty] at hc <;> cases hc

/-- Concrete resource used by witness computations: a Deployment whose
`spec.replicas` is 3. -/
def wRes3 : Resource :=
  { kind := "Deployment", ns := "default", name := "nginx",
    spec := some [("replicas", .prim "3")] }

/-- Concrete resource used by witness computations: the same Deployment
with `spec.replicas` 5. -/
def wRes5 : Resource :=
  { kind := "Deployment", ns := "default", name := "nginx",
    spec := some [("replicas", .prim "5")] }

/-- The MODIFIED entry `Compare` produces for `wRes3` → `wRes5`. -/
def wEntryMod : DriftEntry :=
  { type := DriftType.modified, resource := wRes5,
    fieldDiffs := [{ path := ".spec.replicas", oldValue := some (.prim "3"),
                     newValue := some (.prim "5") }] }

/-- Witness for C9: the invariant applied to the concrete MODIFIED entry
of a concrete report. -/
theorem drift_entry_fieldDiffs_invariant_witness :
    (wEntryMod.type = DriftType.modified → wEntryMod.fieldDiffs ≠ []) ∧
    ((wEntryMod.type = DriftType.added ∨ wEntryMod.type = DriftType.removed) →
      wEntryMod.fieldDiffs = []) :=
  drift_entry_fieldDiffs_invariant 0 { resources := [wRes3] } { resources := [wRes5] }
    wEntryMod (by
      have hp := driftEntriesOf_perm (indexResources [wRes3]) (indexResources [wRes5])
      rw [show (Compare 0 { resources := [wRes3] } { resources := [wRes5] }).entries
          = driftEntriesOf (indexResources [wRes3]) (indexResources [wRes5]) from rfl]
      refine hp.mem_iff.mpr ?_
      simp [removedEntriesOf, addedEntriesOf, modifiedEntriesOf, indexResources, insertResource,
        idxLookup, Resource.fullName, wRes3, wRes5, wEntryMod, compareResources, strMapDeepEqual,
        deepEqualMapOpt, deepSubmap, mapIndex, deepEqual, deepCompareMap, allKeysOf,
        deepCompareKeys, perKeyDiff])

/-- The claim C6 as stated is false on the code: `Compare` stamps the
report with the invocation wall-clock time, so two invocations on equal
inputs differ in the `Timestamp` field. -/
theorem compare_not_pure_counterexample :
    Compare 0 { resources := [] } { resources := [] }
      ≠ Compare 1 { resources := [] } { resources := [] } := by
  decide

theorem str_beq_comm (a b : String) : (a == b) = (b == a) := by
  by_cases h : a = b
  · rw [h]
  · have h1 : (a == b) = false := beq_eq_false_iff_ne.mpr h
    have h2 : (b == a) = false := beq_eq_false_iff_ne.mpr (Ne.symm h)
    rw [h1, h2]

theorem deepEqual_symm (a b : GoVal) : deepEqual a b = deepEqual b a := by
  cases a <;> cases b <;> simp only [deepEqual]
  · exact str_beq_comm _ _
  · exact Bool.and_comm _ _

theorem strMapDeepEqual_symm (a b : Option (List (String × String))) :
    strMapDeepEqual a b = strMapDeepEqual b a := by
  cases a <;> cases b <;> simp only [strMapDeepEqual]
  exact Bool.and_comm _ _

theorem deepEqualMapOpt_symm (a b : Option (List (String × GoVal))) :
    deepEqualMapOpt a b = deepEqualMapOpt b a := by
  cases a <;> cases b <;> simp only [deepEqualMapOpt]
  exact Bool.and_comm _ _

theorem mapIndex_eq_none_iff (m : List (String × GoVal)) (k : String) :
    mapIndex m k = none ↔ k ∉ m.map Prod.fst := by
  induction m with
  | nil => simp [mapIndex]
  | cons kv rest ih =>
    obtain ⟨k', v⟩ := kv
    by_cases h : k' = k
    · subst h
      simp [mapIndex]
    · simp [mapIndex, h, ih, Ne.symm h]

theorem mem_allKeysOf (b t : List (String × GoVal)) (k : String) :
    k ∈ allKeysOf b t ↔ k ∈ b.map Prod.fst ∨ k ∈ t.map Prod.fst := by
  simp [allKeysOf]

theorem deepCompareKeys_nil_iff (pfx : String) (b t : List (String × GoVal))
    (ks : List String) :
    deepCompareKeys pfx b t ks = [] ↔ ∀ k ∈ ks, perKeyDiff pfx b t k = [] := by
  induction ks with
  | nil => simp [deepCompareKeys]
  | cons k ks ih =>
    rw [deepCompareKeys]
    simp [List.append_eq_nil, ih]

theorem perKeyDiff_none (p : String) (b t : List (String × GoVal)) (k : String)
    (h : mapIndex b k = none) :
    perKeyDiff p b t k = [{ path := p ++ "." ++ k, newValue := mapIndex t k }] := by
  rw [perKeyDiff.eq_def]
  split
  · rfl
  · simp_all

theorem perKeyDiff_some_none (p : String) (b t : List (String × GoVal)) (k : String)
    (bv : GoVal) (hb : mapIndex b k = some bv) (ht : mapIndex t k = none) :
    perKeyDiff p b t k = [{ path := p ++ "." ++ k, oldValue := some bv }] := by
  rw [perKeyDiff.eq_def]
  split
  · simp_all
  · split
    · simp_all
    · simp_all

theorem perKeyDiff_map_map (p : String) (b t : List (String × GoVal)) (k : String)
    (bm tm : List (String × GoVal))
    (hb : mapIndex b k = some (.mapV bm)) (ht : mapIndex t k = some (.mapV tm)) :
    perKeyDiff p b t k = deepCompareKeys (p ++ "." ++ k) bm tm (allKeysOf bm tm) := by
  rw [perKeyDiff.eq_def]
  split
  · simp_all
  · split
    · simp_all
    · split
      · simp_all
      · simp_all

theorem perKeyDiff_leaf (p : String) (b t : List (String × GoVal)) (k : String)
    (bv tv : GoVal) (hb : mapIndex b k = some bv) (ht : mapIndex t k = some tv)
    (hnot : ∀ bm tm, ¬(bv = .mapV bm ∧ tv = .mapV tm)) :
    perKeyDiff p b t k =
      if deepEqual bv tv then []
      else [{ path := p ++ "." ++ k, oldValue := some bv, newValue := some tv }] := by
  rw [perKeyDiff.eq_def]
  split
  · simp_all
  · split
    · simp_all
    · split
      · rename_i bm2 tm2 heq1 heq2
        rw [hb] at heq1
        rw [ht] at heq2
        injection heq1 with h1
        injection heq2 with h2
        exact absurd ⟨h1, h2⟩ (hnot bm2 tm2)
      · simp_all

theorem perKeyDiff_nil_symm_aux :
    ∀ N : Nat, ∀ b t : List (String × GoVal), sizeOf b + sizeOf t ≤ N →
      ∀ p q k, (perKeyDiff p b t k = [] ↔ perKeyDiff q t b k = []) := by
  intro N
  induction N using Nat.strong_induction_on with
  | _ N ih =>
    intro b t hN p q k
    rcases hbk : mapIndex b k with _ | bv
    · rcases htk : mapIndex t k with _ | tv
      · rw [perKeyDiff_none p b t k hbk, perKeyDiff_none q t b k htk]
        simp
      · rw [perKeyDiff_none p b t k hbk, perKeyDiff_some_none q t b k tv htk hbk]
        simp
    · rcases htk : mapIndex t k with _ | tv
      · rw [perKeyDiff_some_none p b t k bv hbk htk, perKeyDiff_none q t b k htk]
        simp
      · cases hmb : bv with
        | prim s =>
          subst hmb
          rw [perKeyDiff_leaf p b t k _ _ hbk htk (by simp),
            perKeyDiff_leaf q t b k _ _ htk hbk (by simp)]
          rw [deepEqual_symm]
          rcases deepEqual tv (GoVal.prim s) <;> simp
        | mapV bm =>
          subst hmb
          cases hmt : tv with
          | prim s2 =>
            subst hmt
            rw [perKeyDiff_leaf p b t k _ _ hbk htk (by simp),
              perKeyDiff_leaf q t b k _ _ htk hbk (by simp)]
            rw [deepEqual_symm]
            rcases deepEqual (GoVal.prim s2) (GoVal.mapV bm) <;> simp
          | mapV tm =>
            subst hmt
            have hsb := sizeOf_mapIndex hbk
            have hst := sizeOf_mapIndex htk
            rw [perKeyDiff_map_map p b t k bm tm hbk htk,
              perKeyDiff_map_map q t b k tm bm htk hbk]
            rw [deepCompareKeys_nil_iff, deepCompareKeys_nil_iff]
            have hsz : sizeOf bm + sizeOf tm < N := by
              simp at hsb hst
              omega
            constructor
            · intro h k2 hk2
              refine (ih (sizeOf bm + sizeOf tm) hsz bm tm le_rfl
                (p ++ "." ++ k) (q ++ "." ++ k) k2).mp (h k2 ?_)
              rw [mem_allKeysOf] at hk2 ⊢
              tauto
            · intro h k2 hk2
              refine (ih (sizeOf bm + sizeOf tm) hsz bm tm le_rfl
                (p ++ "." ++ k) (q ++ "." ++ k) k2).mpr (h k2 ?_)
              rw [mem_allKeysOf] at hk2 ⊢
              tauto

theorem perKeyDiff_nil_symm (b t : List (String × GoVal)) (p q k : String) :
    perKeyDiff p b t k = [] ↔ perKeyDiff q t b k = [] :=
  perKeyDiff_nil_symm_aux (sizeOf b + sizeOf t) b t le_rfl p q k

theorem deepCompareMap_nil_symm (p q : String) (a b : Option (List (String × GoVal))) :
    deepCompareMap p a b = [] ↔ deepCompareMap q b a = [] := by
  rcases a with _ | ma <;> rcases b with _ | mb <;> simp only [deepCompareMap]
  · rw [deepCompareKeys_nil_iff, deepCompareKeys_nil_iff]
    constructor
    · intro h k hk
      refine (perKeyDiff_nil_symm _ _ p q k).mp (h k ?_)
      rw [mem_allKeysOf] at hk ⊢
      tauto
    · intro h k hk
      refine (perKeyDiff_nil_symm _ _ p q k).mpr (h k ?_)
      rw [mem_allKeysOf] at hk ⊢
      tauto
  · rw [deepCompareKeys_nil_iff, deepCompareKeys_nil_iff]
    constructor
    · intro h k hk
      refine (perKeyDiff_nil_symm _ _ p q k).mp (h k ?_)
      rw [mem_allKeysOf] at hk ⊢
      tauto
    · intro h k hk
      refine (perKeyDiff_nil_symm _ _ p q k).mpr (h k ?_)
      rw [mem_allKeysOf] at hk ⊢
      tauto
  · rw [deepCompareKeys_nil_iff, deepCompareKeys_nil_iff]
    constructor
    · intro h k hk
      refine (perKeyDiff_nil_symm _ _ p q k).mp (h k ?_)
      rw [mem_allKeysOf] at hk ⊢
      tauto
    · intro h k hk
      refine (perKeyDiff_nil_symm _ _ p q k).mpr (h k ?_)
      rw [mem_allKeysOf] at hk ⊢
      tauto

theorem compareResources_nil_symm (x y : Resource) :
    compareResources x y = [] ↔ compareResources y x = [] := by
  rw [compareResources, compareResources]
  simp only [List.append_eq_nil]
  rw [strMapDeepEqual_symm y.labels x.labels, strMapDeepEqual_symm y.annotations x.annotations,
    deepEqualMapOpt_symm y.spec x.spec, deepEqualMapOpt_symm y.data x.data]
  rcases strMapDeepEqual x.labels y.labels <;>
    rcases strMapDeepEqual x.annotations y.annotations <;>
    rcases hs : deepEqualMapOpt x.spec y.spec <;>
    rcases hd : deepEqualMapOpt x.data y.data <;>
    simp [deepCompareMap_nil_symm ".spec" ".spec" x.spec y.spec,
      deepCompareMap_nil_symm ".data" ".data" x.data y.data]

theorem contentDiffers_symm (a b : ResourceSnapshot) (n : String) :
    contentDiffers a b n = contentDiffers b a n := by
  rw [contentDiffers, contentDiffers]
  rcases lastWith a.resources n with _ | br <;> rcases lastWith b.resources n with _ | tr <;>
    try rfl
  have h := compareResources_nil_symm br tr
  rcases h1 : compareResources br tr with _ | ⟨d, ds⟩ <;>
    rcases h2 : compareResources tr br with _ | ⟨d2, ds2⟩ <;> simp_all

/-- Multiset of full names of the report entries with a given drift
type. -/
def namesOfType (rpt : DriftReport) (ty : DriftType) : Multiset String :=
  ((rpt.entries.filter fun e => e.type == ty).map fun e => e.resource.fullName : List String)

theorem idxLookup_mem (l : List (String × Resource)) (n : String) (r : Resource)
    (h : idxLookup l n = some r) : (n, r) ∈ l := by
  induction l with
  | nil => simp [idxLookup] at h
  | cons kv rest ih =>
    obtain ⟨k, v⟩ := kv
    by_cases hk : k = n
    · subst hk
      simp [idxLookup] at h
      simp [h]
    · simp [idxLookup, hk] at h
      exact List.mem_cons_of_mem _ (ih h)

theorem filterMap_map_congr {α β γ : Type} (l : List α) (g : α → Option β) (f : β → γ)
    (Q : α → Bool) (pr : α → γ)
    (h : ∀ x ∈ l, (match g x with | some e => Q x = true ∧ f e = pr x | none => Q x = false)) :
    (l.filterMap g).map f = (l.filter Q).map pr := by
  induction l with
  | nil => rfl
  | cons x xs ih =>
    have hx := h x (List.mem_cons_self x xs)
    have hxs : ∀ x' ∈ xs, (match g x' with
        | some e => Q x' = true ∧ f e = pr x'
        | none => Q x' = false) := fun x' hx' => h x' (List.mem_cons_of_mem _ hx')
    rcases hgx : g x with _ | e <;> rw [hgx] at hx
    · rw [List.filterMap_cons_none hgx, List.filter_cons_of_neg (by simp [hx]), ih hxs]
    · rcases hx with ⟨hq, hf⟩
      rw [List.filterMap_cons_some hgx, List.filter_cons_of_pos (by simp [hq])]
      simp only [List.map_cons, hf, ih hxs]

theorem removed_names_eq (bi ti : List (String × Resource)) :
    (removedEntriesOf bi ti).map (fun e => e.resource.fullName)
      = (bi.filter fun kv => (idxLookup ti kv.1).isNone).map (fun kv => kv.2.fullName) := by
  rw [removedEntriesOf, List.map_map]
  rfl

theorem added_names_eq (bi ti : List (String × Resource)) :
    (addedEntriesOf bi ti).map (fun e => e.resource.fullName)
      = (ti.filter fun kv => (idxLookup bi kv.1).isNone).map (fun kv => kv.2.fullName) := by
  rw [addedEntriesOf, List.map_map]
  rfl

theorem modified_names_eq (a b : ResourceSnapshot) :
    (modifiedEntriesOf (indexResources a.resources) (indexResources b.resources)).map
      (fun e => e.resource.fullName)
    = ((indexResources a.resources).filter fun kv => contentDiffers a b kv.1).map Prod.fst := by
  rw [modifiedEntriesOf]
  apply filterMap_map_congr
  intro kv hkv
  have hbase : lastWith a.resources kv.1 = some kv.2 := by
    rw [← idxLookup_indexResources]
    exact idxLookup_of_mem _ _ (nodup_keys_indexResources _) hkv
  rcases hlk : idxLookup (indexResources b.resources) kv.1 with _ | tr
  · have hlk2 := hlk
    rw [idxLookup_indexResources] at hlk2
    simp only [hlk]
    simp [contentDiffers, hlk2, hbase]
  · have htr : kv.1 = tr.fullName :=
      key_eq_fullName_indexResources b.resources (kv.1, tr) (idxLookup_mem _ _ _ hlk)
    have hlk2 := hlk
    rw [idxLookup_indexResources] at hlk2
    simp only [hlk]
    rcases hd : compareResources kv.2 tr with _ | ⟨d, ds⟩
    · simp [hd, contentDiffers, hlk2, hbase]
    · simp only [hd, List.length_cons]
      rw [if_pos (by omega)]
      refine ⟨?_, htr.symm⟩
      rw [contentDiffers, hbase, hlk2]
      simp [hd]

theorem namesOfType_compare (now : Nat) (a b : ResourceSnapshot) (ty : DriftType) :
    namesOfType (Compare now a b) ty =
      (((removedEntriesOf (indexResources a.resources) (indexResources b.resources)
        ++ addedEntriesOf (indexResources a.resources) (indexResources b.resources)
        ++ modifiedEntriesOf (indexResources a.resources)
            (indexResources b.resources)).filter fun e => e.type == ty).map
          fun e => e.resource.fullName : List String) := by
  rw [namesOfType, Multiset.coe_eq_coe]
  exact ((driftEntriesOf_perm _ _).filter _).map _

theorem filter_type_removedEntriesOf (bi ti : List (String × Resource)) :
    ((removedEntriesOf bi ti).filter fun e => e.type == DriftType.removed)
      = removedEntriesOf bi ti ∧
    ((removedEntriesOf bi ti).filter fun e => e.type == DriftType.added) = [] ∧
    ((removedEntriesOf bi ti).filter fun e => e.type == DriftType.modified) = [] :=
  ⟨List.filter_eq_self.mpr fun e he => by simp [(mem_removedEntriesOf he).1],
   List.filter_eq_nil_iff.mpr fun e he => by simp [(mem_removedEntriesOf he).1],
   List.filter_eq_nil_iff.mpr fun e he => by simp [(mem_removedEntriesOf he).1]⟩

theorem filter_type_addedEntriesOf (bi ti : List (String × Resource)) :
    ((addedEntriesOf bi ti).filter fun e => e.type == DriftType.added)
      = addedEntriesOf bi ti ∧
    ((addedEntriesOf bi ti).filter fun e => e.type == DriftType.removed) = [] ∧
    ((addedEntriesOf bi ti).filter fun e => e.type == DriftType.modified) = [] :=
  ⟨List.filter_eq_self.mpr fun e he => by simp [(mem_addedEntriesOf he).1],
   List.filter_eq_nil_iff.mpr fun e he => by simp [(mem_addedEntriesOf he).1],
   List.filter_eq_nil_iff.mpr fun e he => by simp [(mem_addedEntriesOf he).1]⟩

theorem filter_type_modifiedEntriesOf (bi ti : List (String × Resource)) :
    ((modifiedEntriesOf bi ti).filter fun e => e.type == DriftType.modified)
      = modifiedEntriesOf bi ti ∧
    ((modifiedEntriesOf bi ti).filter fun e => e.type == DriftType.added) = [] ∧
    ((modifiedEntriesOf bi ti).filter fun e => e.type == DriftType.removed) = [] :=
  ⟨List.filter_eq_self.mpr fun e he => by simp [(mem_modifiedEntriesOf he).1],
   List.filter_eq_nil_iff.mpr fun e he => by simp [(mem_modifiedEntriesOf he).1],
   List.filter_eq_nil_iff.mpr fun e he => by simp [(mem_modifiedEntriesOf he).1]⟩

/-- The claim C4 symmetry: swapping the two snapshots swaps the ADDED
and REMOVED identity multisets and preserves the MODIFIED one. -/
theorem compare_diff_symmetry (n1 n2 : Nat) (a b : ResourceSnapshot) :
    namesOfType (Compare n1 a b) DriftType.added
      = namesOfType (Compare n2 b a) DriftType.removed ∧
    namesOfType (Compare n1 a b) DriftType.removed
      = namesOfType (Compare n2 b a) DriftType.added ∧
    namesOfType (Compare n1 a b) DriftType.modified
      = namesOfType (Compare n2 b a) DriftType.modified := by
  refine ⟨?_, ?_, ?_⟩
  · rw [namesOfType_compare, namesOfType_compare]
    rw [List.filter_append, List.filter_append, List.filter_append, List.filter_append]
    rw [(filter_type_removedEntriesOf _ _).2.1, (filter_type_addedEntriesOf _ _).1,
      (filter_type_modifiedEntriesOf _ _).2.1]
    rw [(filter_type_removedEntriesOf _ _).1, (filter_type_addedEntriesOf _ _).2.1,
      (filter_type_modifiedEntriesOf _ _).2.2]
    simp only [List.nil_append, List.append_nil, Multiset.coe_eq_coe]
    rw [added_names_eq, removed_names_eq]
  · rw [namesOfType_compare, namesOfType_compare]
    rw [List.filter_append, List.filter_append, List.filter_append, List.filter_append]
    rw [(filter_type_removedEntriesOf _ _).1, (filter_type_addedEntriesOf _ _).2.1,
      (filter_type_modifiedEntriesOf _ _).2.2]
    rw [(filter_type_removedEntriesOf _ _).2.1, (filter_type_addedEntriesOf _ _).1,
      (filter_type_modifiedEntriesOf _ _).2.1]
    simp only [List.nil_append, List.append_nil, Multiset.coe_eq_coe]
    rw [added_names_eq, removed_names_eq]
  · rw [namesOfType_compare, namesOfType_compare]
    rw [List.filter_append, List.filter_append, List.filter_append, List.filter_append]
    rw [(filter_type_removedEntriesOf _ _).2.2, (filter_type_addedEntriesOf _ _).2.2,
      (filter_type_modifiedEntriesOf _ _).1,
      (filter_type_removedEntriesOf _ _).2.2, (filter_type_addedEntriesOf _ _).2.2,
      (filter_type_modifiedEntriesOf _ _).1]
    simp only [List.nil_append, Multiset.coe_eq_coe]
    rw [show ((modifiedEntriesOf (indexResources a.resources)
        (indexResources b.resources)).map fun e => e.resource.fullName).Perm
        ((modifiedEntriesOf (indexResources b.resources)
          (indexResources a.resources)).map fun e => e.resource.fullName)
      ↔ True from iff_true_intro ?_]
    · trivial
    · rw [modified_names_eq, modified_names_eq]
      rw [filter_key_map_fst, filter_key_map_fst]
      refine (List.perm_ext_iff_of_nodup ((nodup_keys_indexResources _).filter _)
        ((nodup_keys_indexResources _).filter _)).mpr ?_
      intro n
      rw [List.mem_filter, List.mem_filter]
      rw [mem_keys_indexResources, mem_keys_indexResources]
      constructor
      · rintro ⟨hmem, hcd⟩
        refine ⟨?_, by rw [contentDiffers_symm]; exact hcd⟩
        have : (lastWith b.resources n).isSome := by
          rw [contentDiffers] at hcd
          rcases lastWith a.resources n with _ | br <;>
            rcases hlb : lastWith b.resources n with _ | tr <;> simp_all
        rwa [lastWith_isSome_iff] at this
      · rintro ⟨hmem, hcd⟩
        refine ⟨?_, by rw [contentDiffers_symm]; exact hcd⟩
        have : (lastWith a.resources n).isSome := by
          rw [contentDiffers] at hcd
          rcases lastWith b.resources n with _ | br <;>
            rcases hla : lastWith a.resources n with _ | tr <;> simp_all
        rwa [lastWith_isSome_iff] at this

/-- Two nilable Go maps related by the spec's nil-as-empty treatment:
equal, or one nil while the other is empty non-nil. -/
def nilEmptyEquiv (a b : Option (List (String × GoVal))) : Prop :=
  a = b ∨ (a = none ∧ b = some []) ∨ (a = some [] ∧ b = none)

theorem mapIndex_isSome_of_mem {m : List (String × GoVal)} {k : String}
    (h : k ∈ m.map Prod.fst) : ∃ v, mapIndex m k = some v := by
  rcases hv : mapIndex m k with _ | v
  · rw [mapIndex_eq_none_iff] at hv
    exact absurd h hv
  · exact ⟨v, rfl⟩

theorem perKeyDiff_self_nil :
    ∀ N : Nat, ∀ m : List (String × GoVal), sizeOf m ≤ N →
      ∀ p k, k ∈ m.map Prod.fst → perKeyDiff p m m k = [] := by
  intro N
  induction N using Nat.strong_induction_on with
  | _ N ih =>
    intro m hN p k hk
    rcases mapIndex_isSome_of_mem hk with ⟨v, hv⟩
    cases hvv : v with
    | prim s =>
      subst hvv
      rw [perKeyDiff_leaf p m m k _ _ hv hv (by simp)]
      simp [deepEqual]
    | mapV mm =>
      subst hvv
      have hsz := sizeOf_mapIndex hv
      rw [perKeyDiff_map_map p m m k mm mm hv hv]
      rw [deepCompareKeys_nil_iff]
      intro k2 hk2
      have hk2m : k2 ∈ mm.map Prod.fst := by
        rw [mem_allKeysOf] at hk2
        tauto
      refine ih (sizeOf mm) ?_ mm le_rfl _ k2 hk2m
      simp at hsz
      omega

theorem deepCompareMap_self_nil (p : String) (a : Option (List (String × GoVal))) :
    deepCompareMap p a a = [] := by
  rcases a with _ | m
  · rfl
  · simp only [deepCompareMap]
    rw [deepCompareKeys_nil_iff]
    intro k hk
    refine perKeyDiff_self_nil (sizeOf m) m le_rfl p k ?_
    rw [mem_allKeysOf] at hk
    tauto

theorem deepCompareMap_nilEmpty (p : String) (a b : Option (List (String × GoVal)))
    (h : nilEmptyEquiv a b) : deepCompareMap p a b = [] := by
  rcases h with h | ⟨h1, h2⟩ | ⟨h1, h2⟩
  · rw [h]
    exact deepCompareMap_self_nil p b
  · rw [h1, h2]
    simp only [deepCompareMap]
    rw [deepCompareKeys_nil_iff]
    intro k hk
    simp [allKeysOf] at hk
  · rw [h1, h2]
    simp only [deepCompareMap]
    rw [deepCompareKeys_nil_iff]
    intro k hk
    simp [allKeysOf] at hk

/-- The claim C5 as stated is false on the code: a nil labels map
against an empty non-nil labels map is a `reflect.DeepEqual` difference
(analyzer.go:158), so `Compare` emits a MODIFIED entry whose only diff
is the whole-map `.metadata.labels` pair, for a resource pair that
differs in nothing else. -/
theorem nil_empty_labels_counterexample :
    (Compare 0
        { resources := [{ kind := "Deployment", ns := "default", name := "web",
                          labels := none : Resource }] }
        { resources := [{ kind := "Deployment", ns := "default", name := "web",
                          labels := some [] : Resource }] }).entries
      = [{ type := DriftType.modified,
           resource := { kind := "Deployment", ns := "default", name := "web",
                         labels := some [] : Resource },
           fieldDiffs := [{ path := ".metadata.labels", oldValue := none,
                            newValue := some (.mapV []) }] }] := by
  rw [show (Compare 0
      { resources := [{ kind := "Deployment", ns := "default", name := "web",
                        labels := none : Resource }] }
      { resources := [{ kind := "Deployment", ns := "default", name := "web",
                        labels := some [] : Resource }] }).entries
    = driftEntriesOf
        (indexResources [{ kind := "Deployment", ns := "default", name := "web",
                           labels := none : Resource }])
        (indexResources [{ kind := "Deployment", ns := "default", name := "web",
                           labels := some [] : Resource }]) from rfl]
  rw [driftEntriesOf]
  simp [removedEntriesOf, addedEntriesOf, modifiedEntriesOf, indexResources, insertResource,
    idxLookup, Resource.fullName, compareResources, strMapDeepEqual, strMapSub, strMapVal,
    deepEqualMapOpt, deepCompareMap, deepSubmap]

/-- The claim C5 amended: the nil-as-empty treatment holds for `spec`
and `data` — when those fields are related by nil-vs-empty (or equal)
and labels and annotations are `reflect.DeepEqual`, `compareResources`
emits no diff and `Compare` on snapshots holding the pair emits no entry
at all; labels and annotations themselves distinguish nil from empty
(see the counterexample). -/
theorem spec_data_nil_empty_no_modified (r1 r2 : Resource)
    (hfn : r1.fullName = r2.fullName)
    (hl : strMapDeepEqual r1.labels r2.labels = true)
    (ha : strMapDeepEqual r1.annotations r2.annotations = true)
    (hs : nilEmptyEquiv r1.spec r2.spec)
    (hd : nilEmptyEquiv r1.data r2.data) :
    compareResources r1 r2 = [] ∧
    ∀ now m1 m2, (Compare now { metadata := m1, resources := [r1] }
      { metadata := m2, resources := [r2] }).entries = [] := by
  have hcr : compareResources r1 r2 = [] := by
    rw [compareResources, hl, ha]
    rcases hgs : deepEqualMapOpt r1.spec r2.spec <;>
      rcases hgd : deepEqualMapOpt r1.data r2.data <;>
      simp [deepCompareMap_nilEmpty _ _ _ hs, deepCompareMap_nilEmpty _ _ _ hd]
  refine ⟨hcr, ?_⟩
  intro now m1 m2
  rw [show (Compare now { metadata := m1, resources := [r1] }
      { metadata := m2, resources := [r2] }).entries
    = driftEntriesOf (indexResources [r1]) (indexResources [r2]) from rfl]
  rw [driftEntriesOf]
  simp [removedEntriesOf, addedEntriesOf, modifiedEntriesOf, indexResources, insertResource,
    idxLookup, hfn, hcr]

/-- Witness for the amended C5: a ConfigMap-like pair whose `spec` is
nil versus empty non-nil and whose `data` is empty non-nil versus nil
produces no diff and no drift entry. -/
theorem spec_data_nil_empty_no_modified_witness :
    compareResources
        { kind := "ConfigMap", ns := "default", name := "cm", spec := none, data := some [] }
        { kind := "ConfigMap", ns := "default", name := "cm", spec := some [], data := none }
      = [] ∧
    ∀ now m1 m2, (Compare now { metadata := m1, resources :=
        [{ kind := "ConfigMap", ns := "default", name := "cm", spec := none,
           data := some [] }] }
      { metadata := m2, resources :=
        [{ kind := "ConfigMap", ns := "default", name := "cm", spec := some [],
           data := none }] }).entries = [] :=
  spec_data_nil_empty_no_modified
    { kind := "ConfigMap", ns := "default", name := "cm", spec := none, data := some [] }
    { kind := "ConfigMap", ns := "default", name := "cm", spec := some [], data := none }
    rfl rfl rfl (Or.inr (Or.inl ⟨rfl, rfl⟩)) (Or.inr (Or.inr ⟨rfl, rfl⟩))

/-- Embedding of `config.GitConfig` (pkg/config).  `commitMsgPfx` embeds
the Go field `CommitMessagePrefix`. -/
structure GitConfig where
  authorName : String := "GitOps-Time-Machine"
  authorEmail : String := "gitops-tm@automated"
  commitMsgPfx : String := "[snapshot]"
  branch : String := "main"
deriving Repr, DecidableEq

/-- One commit of the snapshot repository.  The hash is the commit's
identifier (a 40-hex-digit string in go-git, modelled as an opaque
non-empty string generated per commit); the tree is the committed state
of the working directory, path to content. -/
structure RepoCommit where
  hash : String
  authorName : String
  authorEmail : String
  authorWhen : Nat
  message : String
  tree : List (String × String)
deriving Repr, DecidableEq

/-- State of the snapshot repository as `Versioner.Commit` observes it:
the commit chain (newest first) and the current working tree. -/
structure RepoState where
  commits : List RepoCommit := []
  worktree : List (String × String) := []
deriving Repr, DecidableEq

/-- Tree of the head commit; an empty repository has an empty committed
tree, so `git status` is clean exactly when the worktree is empty. -/
def headTree (st : RepoState) : List (String × String) :=
  match st.commits with
  | [] => []
  | c :: _ => c.tree

/-- Commit message built by `Commit` (versioner.go:97-102):
`<prefix> <timestamp> — <N> resources across <M> namespaces`. -/
def commitMessage (cfg : GitConfig) (md : SnapshotMetadata) : String :=
  cfg.commitMsgPfx ++ " " ++ toString md.timestamp ++ " — "
    ++ toString md.resourceCount ++ " resources across "
    ++ toString md.namespaces.length ++ " namespaces"

/-- Hash assigned to the next commit.  go-git derives a SHA-1 hex
digest, always non-empty; the model generates a distinct non-empty
identifier per chain position. -/
def newCommitHash (st : RepoState) : String :=
  "h" ++ toString st.commits.length

/-- Embedding of `Versioner.Commit` (versioner.go:74-128): stage all
changes (after which the status compares the worktree against the head
commit's tree), return the empty hash *without error* when the status is
clean, otherwise create a commit whose author identity comes from the
configuration and whose author timestamp is the snapshot's capture
timestamp.  IO failures of the underlying store (worktree, staging,
status or commit-object errors) are outside the model; the `Except`
result mirrors the Go `(string, error)` pair. -/
def Commit (cfg : GitConfig) (st : RepoState) (md : SnapshotMetadata) :
    (Except String String) × RepoState :=
  if st.worktree = headTree st then (.ok "", st)
  else
    let c : RepoCommit :=
      { hash := newCommitHash st, authorName := cfg.authorName,
        authorEmail := cfg.authorEmail, authorWhen := md.timestamp,
        message := commitMessage cfg md, tree := st.worktree }
    (.ok c.hash, { st with commits := c :: st.commits })

/-- The claim C2 contract: a clean index yields the empty-hash sentinel
with no error and no history advance, and a non-empty returned hash
always corresponds to a newly created commit. -/
theorem commit_empty_hash_sentinel (cfg : GitConfig) (st : RepoState)
    (md : SnapshotMetadata) :
    (st.worktree = headTree st →
      (Commit cfg st md).1 = .ok "" ∧ (Commit cfg st md).2.commits = st.commits) ∧
    (∀ h, (Commit cfg st md).1 = .ok h → h ≠ "" →
      ∃ c, (Commit cfg st md).2.commits = c :: st.commits ∧ c.hash = h
        ∧ c.tree = st.worktree ∧ c.authorWhen = md.timestamp) := by
  constructor
  · intro hclean
    rw [Commit, if_pos hclean]
    exact ⟨rfl, rfl⟩
  · intro h hok hne
    by_cases hclean : st.worktree = headTree st
    · rw [Commit, if_pos hclean] at hok
      injection hok with h1
      exact absurd h1.symm hne
    · rw [Commit, if_neg hclean] at hok ⊢
      injection hok with h1
      exact ⟨_, rfl, h1, rfl, rfl⟩

/-- Witness for C2: committing on a fresh repository with an empty
worktree (clean status) returns the empty hash and leaves the history
empty. -/
theorem commit_empty_hash_sentinel_witness :
    (Commit {} {} {}).1 = .ok "" ∧ (Commit {} {} {}).2.commits = ({} : RepoState).commits :=
  (commit_empty_hash_sentinel {} {} {}).1 rfl

/-- One commit as `FindCommitByTime` observes it. -/
structure LogCommit where
  hash : String
  authorWhen : Nat
deriving Repr, DecidableEq

/-- Loop step of `FindCommitByTime` (versioner.go:201-210): a commit not
after the target replaces the running best when no best is set yet or
its author time is strictly larger. -/
def findStep (target : Nat) (best : String × Nat) (c : LogCommit) : String × Nat :=
  if c.authorWhen ≤ target then
    if best.1 == "" || decide (best.2 < c.authorWhen) then (c.hash, c.authorWhen) else best
  else best

/-- Embedding of `Versioner.FindCommitByTime` (versioner.go:190-220):
fold the commit log keeping the best (hash, author time) pair, then
return the hash, or a not-found error when no commit is at or before the
target. -/
def FindCommitByTime (commits : List LogCommit) (target : Nat) : Except String String :=
  let best := commits.foldl (findStep target) ("", 0)
  if best.1 = "" then .error ("no snapshot found at or before " ++ toString target)
  else .ok best.1

/-- Invariant carried through the fold of `FindCommitByTime`: either no
qualifying commit has been seen, or the best pair names a seen
qualifying commit with maximal author time. -/
def FindInv (target : Nat) (seen : List LogCommit) (best : String × Nat) : Prop :=
  (best.1 = "" ∧ ∀ c ∈ seen, ¬c.authorWhen ≤ target) ∨
  (best.1 ≠ "" ∧ best.2 ≤ target ∧ (∃ c ∈ seen, c.hash = best.1 ∧ c.authorWhen = best.2) ∧
    ∀ c ∈ seen, c.authorWhen ≤ target → c.authorWhen ≤ best.2)

theorem findInv_step (target : Nat) (seen : List LogCommit) (best : String × Nat)
    (c : LogCommit) (hc : c.hash ≠ "") (hinv : FindInv target seen best) :
    FindInv target (seen ++ [c]) (findStep target best c) := by
  rw [findStep]
  by_cases hle : c.authorWhen ≤ target
  · rw [if_pos hle]
    rcases hinv with ⟨hb, hall⟩ | ⟨hb, hbt, ⟨cw, hcw, hch, hct⟩, hmax⟩
    · rw [if_pos (by simp [hb])]
      refine Or.inr ⟨hc, hle, ⟨c, by simp, rfl, rfl⟩, ?_⟩
      intro c2 hc2 hle2
      rcases List.mem_append.mp hc2 with h2 | h2
      · exact absurd hle2 (hall c2 h2)
      · simp at h2
        rw [h2]
    · have hbne : (best.1 == "") = false := beq_eq_false_iff_ne.mpr hb
      by_cases hlt : best.2 < c.authorWhen
      · rw [if_pos (by simp [hbne, hlt])]
        refine Or.inr ⟨hc, hle, ⟨c, by simp, rfl, rfl⟩, ?_⟩
        intro c2 hc2 hle2
        rcases List.mem_append.mp hc2 with h2 | h2
        · exact le_trans (hmax c2 h2 hle2) (le_of_lt hlt)
        · simp at h2
          rw [h2]
      · rw [if_neg (by simp [hbne, hlt])]
        refine Or.inr ⟨hb, hbt, ⟨cw, List.mem_append_left _ hcw, hch, hct⟩, ?_⟩
        intro c2 hc2 hle2
        rcases List.mem_append.mp hc2 with h2 | h2
        · exact hmax c2 h2 hle2
        · simp at h2
          rw [h2]
          omega
  · rw [if_neg hle]
    rcases hinv with ⟨hb, hall⟩ | ⟨hb, hbt, hex, hmax⟩
    · refine Or.inl ⟨hb, ?_⟩
      intro c2 hc2
      rcases List.mem_append.mp hc2 with h2 | h2
      · exact hall c2 h2
      · simp at h2
        rw [h2]
        exact hle
    · refine Or.inr ⟨hb, hbt, ?_, ?_⟩
      · rcases hex with ⟨cw, hcw, hch, hct⟩
        exact ⟨cw, List.mem_append_left _ hcw, hch, hct⟩
      · intro c2 hc2 hle2
        rcases List.mem_append.mp hc2 with h2 | h2
        · exact hmax c2 h2 hle2
        · simp at h2
          rw [h2] at hle2
          exact absurd hle2 hle

theorem findInv_foldl (target : Nat) :
    ∀ (l seen : List LogCommit) (best : String × Nat),
      (∀ c ∈ l, c.hash ≠ "") → FindInv target seen best →
      FindInv target (seen ++ l) (l.foldl (findStep target) best) := by
  intro l
  induction l with
  | nil => intro seen best _ hinv; simpa using hinv
  | cons c cs ih =>
    intro seen best hne hinv
    have h1 := findInv_step target seen best c (hne c (by simp)) hinv
    have h2 := ih (seen ++ [c]) _ (fun c2 hc2 => hne c2 (by simp [hc2])) h1
    rw [List.foldl_cons]
    rw [List.append_assoc] at h2
    simpa using h2

theorem find_spec_aux (commits : List LogCommit) (target : Nat)
    (hne : ∀ c ∈ commits, c.hash ≠ "") :
    (FindCommitByTime commits target
        = .error ("no snapshot found at or before " ++ toString target)
      ∧ ∀ c ∈ commits, ¬c.authorWhen ≤ target) ∨
    (∃ h, FindCommitByTime commits target = .ok h ∧
      ∃ c ∈ commits, c.hash = h ∧ c.authorWhen ≤ target ∧
        ∀ c2 ∈ commits, c2.authorWhen ≤ target → c2.authorWhen ≤ c.authorWhen) := by
  have hinv := findInv_foldl target commits [] ("", 0) hne
    (Or.inl ⟨rfl, by simp⟩)
  simp only [List.nil_append] at hinv
  rcases hinv with ⟨hb, hall⟩ | ⟨hb, hbt, ⟨c, hcm, hch, hct⟩, hmax⟩
  · left
    refine ⟨?_, hall⟩
    rw [FindCommitByTime, if_pos hb]
  · right
    refine ⟨(commits.foldl (findStep target) ("", 0)).1, ?_, c, hcm, hch, ?_, ?_⟩
    · rw [FindCommitByTime, if_neg hb]
    · rw [hct]
      exact hbt
    · intro c2 hc2 hle2
      rw [hct]
      exact hmax c2 hc2 hle2

/-- The claim C3 contract of `FindCommitByTime`: the not-found error
appears exactly when no commit's author time is at or before the target;
a returned hash names a commit at or before the target with maximal
author time; and for three commits at `t₁ < t₂ < t₃` the result for any
target in `[t₂, t₃)` is the middle commit's hash. -/
theorem findCommitByTime_spec (commits : List LogCommit) (target : Nat)
    (hne : ∀ c ∈ commits, c.hash ≠ "") :
    (FindCommitByTime commits target
        = .error ("no snapshot found at or before " ++ toString target)
      ↔ ∀ c ∈ commits, ¬c.authorWhen ≤ target) ∧
    (∀ h, FindCommitByTime commits target = .ok h →
      ∃ c ∈ commits, c.hash = h ∧ c.authorWhen ≤ target ∧
        ∀ c2 ∈ commits, c2.authorWhen ≤ target → c2.authorWhen ≤ c.authorWhen) ∧
    (∀ c1 c2 c3 : LogCommit, ∀ t : Nat, commits = [c1, c2, c3] →
      c1.authorWhen < c2.authorWhen → c2.authorWhen < c3.authorWhen →
      c2.authorWhen ≤ t → t < c3.authorWhen →
      FindCommitByTime commits t = .ok c2.hash) := by
  refine ⟨?_, ?_, ?_⟩
  · constructor
    · intro herr
      rcases find_spec_aux commits target hne with ⟨_, hall⟩ | ⟨h, hok, _⟩
      · exact hall
      · rw [herr] at hok
        cases hok
    · intro hall
      rcases find_spec_aux commits target hne with ⟨herr, _⟩ | ⟨h, _, c, hcm, _, hle, _⟩
      · exact herr
      · exact absurd hle (hall c hcm)
  · intro h hok
    rcases find_spec_aux commits target hne with ⟨herr, _⟩ | ⟨h2, hok2, c, hcm, hch, hle, hmax⟩
    · rw [herr] at hok
      cases hok
    · rw [hok2] at hok
      injection hok with hh
      exact ⟨c, hcm, hh ▸ hch, hle, hmax⟩
  · intro c1 c2 c3 t hcs h12 h23 h2t ht3
    subst hcs
    rcases find_spec_aux [c1, c2, c3] t hne with ⟨_, hall⟩ | ⟨h, hok, c, hcm, hch, hle, hmax⟩
    · exact absurd h2t (hall c2 (by simp))
    · have hcc : c = c2 := by
        have hmax2 := hmax c2 (by simp) h2t
        rcases (by simpa using hcm : c = c1 ∨ c = c2 ∨ c = c3) with h | h | h
        · rw [h] at hmax2
          omega
        · exact h
        · rw [h] at hle
          omega
      rw [hok, ← hch, hcc]

/-- Witness for C3: three commits at times 10, 20, 30 and target 25
resolve to the commit at time 20. -/
theorem findCommitByTime_spec_witness :
    FindCommitByTime [⟨"a1", 10⟩, ⟨"b2", 20⟩, ⟨"c3", 30⟩] 25 = .ok "b2" :=
  (findCommitByTime_spec [⟨"a1", 10⟩, ⟨"b2", 20⟩, ⟨"c3", 30⟩] 25
      (by intro c hc; rcases (by simpa using hc) with h | h | h <;> simp [h])).2.2
    ⟨"a1", 10⟩ ⟨"b2", 20⟩ ⟨"c3", 30⟩ 25 rfl (by decide) (by decide) (by decide) (by decide)

/-- On-disk tree as the snapshotter sees it: a flat map from a path
(segments relative to the output root) to file content.  Directories are
implicit; removing a top-level entry removes every path below it, which
is how `os.RemoveAll` on a `ReadDir` entry behaves. -/
def FsTree : Type := List (List String × String)

/-- Path lookup in the flat tree (first binding). -/
def fsLookup : FsTree → List String → Option String
  | [], _ => none
  | (p, c) :: rest, path => if p = path then some c else fsLookup rest path

/-- Overwriting insert, used for `os.WriteFile`. -/
def fsWrite (fs : FsTree) (path : List String) (content : String) : FsTree :=
  (path, content) :: fs.filter fun e => e.1 ≠ path

/-- Embedding of `cleanDirectory` (snapshotter.go:152-173): every entry
directly under the root except `.git` is removed with all its contents;
on the flat tree, keep exactly the paths whose first segment is
`.git`. -/
def cleanDirectory (fs : FsTree) : FsTree :=
  fs.filter fun e => e.1.headD "" = ".git"

/-- Embedding of `sanitizeFilename` (snapshotter.go:176-189): each
character invalid in filenames becomes `_`. -/
def sanitizeFilename (name : String) : String :=
  String.map
    (fun c => if c ∈ (['/', '\\', ':', '*', '?', '<', '>', '|'] ++ [Char.ofNat 34])
      then '_' else c) name

/-- Path of a resource manifest (snapshotter.go:118-134):
`_cluster/<kind-lower>/<name>.yaml` for cluster scope,
`<namespace>/<kind-lower>/<name>.yaml` otherwise. -/
def resourcePath (r : Resource) : List String :=
  if r.ns == "" then ["_cluster", r.kind.toLower, sanitizeFilename r.name ++ ".yaml"]
  else [r.ns, r.kind.toLower, sanitizeFilename r.name ++ ".yaml"]

/-- Stand-in for the YAML rendering of the snapshot metadata; its
content is irrelevant to the claims proved here. -/
def marshalMetadata (md : SnapshotMetadata) : String :=
  toString (repr md)

/-- Stand-in for the YAML rendering of one resource (the Go code
prefers the retained raw object; the rendering content is irrelevant to
the claims proved here). -/
def marshalResource (r : Resource) : String :=
  toString (repr r)

/-- Embedding of the `writeMetadata` step of `Write`
(snapshotter.go:107-115). -/
def writeMetadataFs (fs : FsTree) (snap : ResourceSnapshot) : FsTree :=
  fsWrite fs ["_metadata.yaml"] (marshalMetadata snap.metadata)

/-- Embedding of the per-resource write loop of `Write`
(snapshotter.go:51-56). -/
def writeResourcesFs (fs : FsTree) (resources : List Resource) : FsTree :=
  resources.foldl (fun acc r => fsWrite acc (resourcePath r) (marshalResource r)) fs

/-- Embedding of `Snapshotter.Write` (snapshotter.go:37-60): clean the
root except `.git`, write `_metadata.yaml`, then write every
resource. -/
def Write (snap : ResourceSnapshot) (fs : FsTree) : FsTree :=
  writeResourcesFs (writeMetadataFs (cleanDirectory fs) snap) snap.resources

/-- The claim C7 frame property: the clean step of `Write` preserves
every path under `.git` unchanged, removes every other pre-existing
path, and `Write` runs it before repopulating. -/
theorem cleanDirectory_cons (e : List String × String) (rest : FsTree) :
    cleanDirectory (e :: rest) =
      if e.1.headD "" = ".git" then e :: cleanDirectory rest else cleanDirectory rest := by
  rw [cleanDirectory, cleanDirectory, List.filter_cons]
  by_cases hg : e.1.headD "" = ".git" <;> simp [hg]

theorem write_clean_frame (fs : FsTree) :
    (∀ p : List String, p.headD "" = ".git" → fsLookup (cleanDirectory fs) p = fsLookup fs p) ∧
    (∀ p : List String, p.headD "" ≠ ".git" → fsLookup (cleanDirectory fs) p = none) ∧
    (∀ snap, Write snap fs
      = writeResourcesFs (writeMetadataFs (cleanDirectory fs) snap) snap.resources) := by
  refine ⟨?_, ?_, fun _ => rfl⟩
  · intro p hp
    induction fs with
    | nil => rfl
    | cons e rest ih =>
      rw [cleanDirectory_cons]
      by_cases hg : e.1.headD "" = ".git"
      · rw [if_pos hg]
        by_cases hep : e.1 = p <;> simp [fsLookup, hep, ih]
      · have hep : e.1 ≠ p := fun he => hg (he ▸ hp)
        rw [if_neg hg, ih]
        simp [fsLookup, hep]
  · intro p hp
    induction fs with
    | nil => rfl
    | cons e rest ih =>
      rw [cleanDirectory_cons]
      by_cases hg : e.1.headD "" = ".git"
      · have hep : e.1 ≠ p := fun he => hp (he ▸ hg)
        rw [if_pos hg]
        simp [fsLookup, hep, ih]
      · rw [if_neg hg]
        exact ih

/-- Witness for C7: a tree holding a `.git` ref and an old manifest;
after the clean step the ref is intact and the manifest is gone. -/
theorem write_clean_frame_witness :
    fsLookup (cleanDirectory [([".git", "HEAD"], "ref: main"),
        (["default", "deployment", "web.yaml"], "old")]) [".git", "HEAD"]
      = fsLookup [([".git", "HEAD"], "ref: main"),
        (["default", "deployment", "web.yaml"], "old")] [".git", "HEAD"] ∧
    fsLookup (cleanDirectory [([".git", "HEAD"], "ref: main"),
        (["default", "deployment", "web.yaml"], "old")]) ["default", "deployment", "web.yaml"]
      = none :=
  ⟨(write_clean_frame _).1 [".git", "HEAD"] rfl,
   (write_clean_frame _).2.1 ["default", "deployment", "web.yaml"] (by decide)⟩

/-- Head position of the snapshot repository's working tree. -/
inductive HeadPos : Type where
  | onBranch (name : String)
  | detached (hash : String)
deriving Repr, DecidableEq

/-- Environment of the time-travel engine: the commit hashes the
repository knows, the configured branch (which exists — the init policy
creates it), and what the snapshot store's `Read` yields at each
commit's tree. -/
structure EngineEnv where
  commits : List String
  branch : String
  readAt : String → Except String ResourceSnapshot

/-- Embedding of `Versioner.CheckoutAt` (versioner.go:166-175): a
detached checkout at the hash, failing on an unknown hash with the
working tree unchanged. -/
def CheckoutAt (env : EngineEnv) (h : String) : Except String HeadPos :=
  if h ∈ env.commits then .ok (.detached h)
  else .error ("failed to checkout commit " ++ h)

/-- Embedding of `Versioner.CheckoutBranch` (versioner.go:178-187):
return to the configured branch.  The branch exists by the init policy,
so the checkout succeeds; its go-git error path (only logged by the
caller) is outside the model. -/
def CheckoutBranch (env : EngineEnv) : HeadPos :=
  .onBranch env.branch

/-- Embedding of `Engine.SnapshotByCommit` (timetravel.go:44-67):
detached checkout, deferred return to the configured branch covering
both the read-error exit and the success exit, read of the tree, and
stamping of the commit hash into the returned snapshot's metadata.
When the checkout itself fails, the function returns before the defer
is installed and the working tree is untouched. -/
def SnapshotByCommit (env : EngineEnv) (st : HeadPos) (h : String) :
    (Except String ResourceSnapshot) × HeadPos :=
  match CheckoutAt env h with
  | .error e => (.error ("failed to checkout commit " ++ h ++ ": " ++ e), st)
  | .ok _ =>
    match env.readAt h with
    | .error e =>
      (.error ("failed to read snapshot at commit " ++ h ++ ": " ++ e), CheckoutBranch env)
    | .ok snap =>
      (.ok { snap with metadata := { snap.metadata with commitHash := h } },
        CheckoutBranch env)

/-- The claim C8 discipline: after a successful detached checkout every
exit restores the configured branch; a failed checkout leaves the tree
untouched; and a successful result carries the requested hash in its
metadata. -/
theorem snapshotByCommit_restores_branch (env : EngineEnv) (st : HeadPos) (h : String) :
    (h ∈ env.commits → (SnapshotByCommit env st h).2 = HeadPos.onBranch env.branch) ∧
    (h ∉ env.commits → (SnapshotByCommit env st h).2 = st) ∧
    (∀ snap, (SnapshotByCommit env st h).1 = .ok snap →
      snap.metadata.commitHash = h
        ∧ (SnapshotByCommit env st h).2 = HeadPos.onBranch env.branch) := by
  refine ⟨?_, ?_, ?_⟩
  · intro hmem
    rw [SnapshotByCommit, CheckoutAt, if_pos hmem]
    rcases env.readAt h with e | snap <;> rfl
  · intro hmem
    rw [SnapshotByCommit, CheckoutAt, if_neg hmem]
  · intro snap hok
    by_cases hmem : h ∈ env.commits
    · have hsnap : SnapshotByCommit env st h =
          (match env.readAt h with
            | .error e =>
              (.error ("failed to read snapshot at commit " ++ h ++ ": " ++ e),
                CheckoutBranch env)
            | .ok s =>
              (.ok { s with metadata := { s.metadata with commitHash := h } },
                CheckoutBranch env)) := by
        rw [SnapshotByCommit, CheckoutAt, if_pos hmem]
      rcases hra : env.readAt h with e | snap2 <;> rw [hra] at hsnap
      · rw [hsnap] at hok
        exact absurd hok (by simp)
      · rw [hsnap] at hok ⊢
        injection hok with h1
        rw [← h1]
        exact ⟨rfl, rfl⟩
    · rw [SnapshotByCommit, CheckoutAt, if_neg hmem] at hok
      cases hok

/-- Concrete engine environment used by the C8 witness: one known
commit, branch `main`, and a store read that succeeds. -/
def wEnv : EngineEnv :=
  { commits := ["c1"], branch := "main", readAt := fun _ => Except.ok {} }

/-- Witness for C8: an engine with one known commit; retrieving it ends
on the configured branch with the hash stamped into the metadata. -/
theorem snapshotByCommit_restores_branch_witness :
    (SnapshotByCommit wEnv (HeadPos.onBranch "main") "c1").2 = HeadPos.onBranch "main" ∧
    ∀ snap, (SnapshotByCommit wEnv (HeadPos.onBranch "main") "c1").1 = .ok snap →
      snap.metadata.commitHash = "c1" :=
  ⟨(snapshotByCommit_restores_branch wEnv _ _).1 (by rw [wEnv]; simp),
   fun snap hok => ((snapshotByCommit_restores_branch wEnv _ _).2.2 snap hok).1⟩

/-- Embedding of the namespace-policy part of `config.SnapshotConfig`
(pkg/config). -/
structure SnapshotCfg where
  namespaces : List String := []
  excludeNamespaces : List String := []
deriving Repr, DecidableEq

/-- Embedding of `shouldExcludeNamespace` (collector.go:202-209). -/
def shouldExcludeNamespace (cfg : SnapshotCfg) (ns : String) : Bool :=
  cfg.excludeNamespaces.any fun excluded => ns == excluded

/-- Embedding of `shouldIncludeNamespace` (collector.go:212-219). -/
def shouldIncludeNamespace (cfg : SnapshotCfg) (ns : String) : Bool :=
  cfg.namespaces.any fun included => ns == included

/-- Per-resource namespace filter applied inside the `Collect` loop
(collector.go:103-109): drop on a deny-list match, else drop when a
non-empty allow-list does not contain the namespace. -/
def keepResource (cfg : SnapshotCfg) (r : Resource) : Bool :=
  if shouldExcludeNamespace cfg r.ns then false
  else if cfg.namespaces.length > 0 && !shouldIncludeNamespace cfg r.ns then false
  else true

/-- Filtering stage of `Collect` (collector.go:103-114) over the listed
resources (the per-kind lists concatenated in collection order): exactly
the resources passing the namespace policy are appended to the
snapshot. -/
def collectFiltered (cfg : SnapshotCfg) (resources : List Resource) : List Resource :=
  resources.filter (keepResource cfg)

/-- The claim C10 behaviour: with a non-empty allow-list not containing
the empty string, the empty namespace fails the allow-list check exactly
like a named namespace, so no cluster-scoped resource survives
collection. -/
theorem cluster_scoped_excluded_by_allowlist (cfg : SnapshotCfg) (resources : List Resource)
    (hne : cfg.namespaces ≠ []) (hno : "" ∉ cfg.namespaces) :
    shouldIncludeNamespace cfg "" = false ∧
    ∀ r ∈ collectFiltered cfg resources, r.ns ≠ "" := by
  have hinc : shouldIncludeNamespace cfg "" = false := by
    rw [shouldIncludeNamespace]
    rw [List.any_eq_false]
    intro x hx hbe
    refine hno ?_
    rw [eq_of_beq hbe]
    exact hx
  refine ⟨hinc, ?_⟩
  intro r hr he
  have hkeep := (List.mem_filter.mp hr).2
  rw [keepResource] at hkeep
  by_cases hex : shouldExcludeNamespace cfg r.ns
  · rw [if_pos hex] at hkeep
    cases hkeep
  · rw [if_neg (by simp [hex])] at hkeep
    have hlen : cfg.namespaces.length > 0 := List.length_pos.mpr hne
    rw [he] at hkeep
    rw [if_pos (by simp [hlen, hinc])] at hkeep
    cases hkeep

/-- Witness for C10: an allow-list of `default` drops a cluster-scoped
ClusterRole. -/
theorem cluster_scoped_excluded_by_allowlist_witness :
    shouldIncludeNamespace { namespaces := ["default"] } "" = false ∧
    ∀ r ∈ collectFiltered { namespaces := ["default"] }
        [{ kind := "ClusterRole", ns := "", name := "admin" : Resource },
         { kind := "Deployment", ns := "default", name := "web" : Resource }],
      r.ns ≠ "" :=
  cluster_scoped_excluded_by_allowlist { namespaces := ["default"] }
    [{ kind := "ClusterRole", ns := "", name := "admin" : Resource },
     { kind := "Deployment", ns := "default", name := "web" : Resource }]
    (by decide) (by decide)

mutual
/-- Per-key body of `deepCompareMap` with the iteration order made
explicit: `ord` stands for the order Go's `range` draws over the
`allKeys` map (analyzer.go:206), an independent arbitrary arrangement
of the key set; nested map walks apply it to their own key union.
`perKeyDiff` is the identity-order instance. -/
def perKeyDiffOrd (ord : List String → List String) (pfx : String)
    (b t : List (String × GoVal)) (k : String) : List FieldDiff :=
  let path := pfx ++ "." ++ k
  match hb : mapIndex b k with
  | none => [{ path := path, newValue := mapIndex t k }]
  | some bv =>
    match ht : mapIndex t k with
    | none => [{ path := path, oldValue := some bv }]
    | some tv =>
      match bv, tv with
      | .mapV bm, .mapV tm =>
          deepCompareKeysOrd ord path bm tm (ord (allKeysOf bm tm))
      | bv, tv => if deepEqual bv tv then [] else
          [{ path := path, oldValue := some bv, newValue := some tv }]
termination_by (sizeOf b + sizeOf t, 0)
decreasing_by
  have h1 := sizeOf_mapIndex hb
  have h2 := sizeOf_mapIndex ht
  simp at h1 h2
  apply Prod.Lex.left
  omega

/-- Key loop of `deepCompareMap` under an explicit iteration order. -/
def deepCompareKeysOrd (ord : List String → List String) (pfx : String)
    (b t : List (String × GoVal)) : List String → List FieldDiff
  | [] => []
  | k :: ks => perKeyDiffOrd ord pfx b t k ++ deepCompareKeysOrd ord pfx b t ks
termination_by ks => (sizeOf b + sizeOf t, ks.length + 1)
decreasing_by
  · apply Prod.Lex.right
    simp
  · apply Prod.Lex.right
    simp
end

/-- Embedding of `deepCompareMap` (analyzer.go:191-238) under an
explicit key-iteration order. -/
def deepCompareMapOrd (ord : List String → List String) (pfx : String)
    (base target : Option (List (String × GoVal))) : List FieldDiff :=
  match base, target with
  | none, none => []
  | base, target =>
    let b := base.getD []
    let t := target.getD []
    deepCompareKeysOrd ord pfx b t (ord (allKeysOf b t))

/-- Embedding of `compareResources` (analyzer.go:154-188) under an
explicit key-iteration order for the `spec`/`data` walks. -/
def compareResourcesOrd (ord : List String → List String)
    (base target : Resource) : List FieldDiff :=
  (if strMapDeepEqual base.labels target.labels then [] else
    [{ path := ".metadata.labels", oldValue := strMapVal base.labels,
       newValue := strMapVal target.labels }])
  ++ (if strMapDeepEqual base.annotations target.annotations then [] else
    [{ path := ".metadata.annotations", oldValue := strMapVal base.annotations,
       newValue := strMapVal target.annotations }])
  ++ (if deepEqualMapOpt base.spec target.spec then [] else
    deepCompareMapOrd ord ".spec" base.spec target.spec)
  ++ (if deepEqualMapOpt base.data target.data then [] else
    deepCompareMapOrd ord ".data" base.data target.data)

/-- MODIFIED entries of `Compare` (analyzer.go:56-67) under an explicit
key-iteration order. -/
def modifiedEntriesOfOrd (ord : List String → List String)
    (baseIndex targetIndex : List (String × Resource)) : List DriftEntry :=
  baseIndex.filterMap fun kv =>
    match idxLookup targetIndex kv.1 with
    | some targetRes =>
      let diffs := compareResourcesOrd ord kv.2 targetRes
      if diffs.length > 0 then
        some { type := DriftType.modified, resource := targetRes, fieldDiffs := diffs : DriftEntry }
      else none
    | none => none

/-- Entry list of `Compare` under an explicit key-iteration order. -/
def driftEntriesOfOrd (ord : List String → List String)
    (baseIndex targetIndex : List (String × Resource)) : List DriftEntry :=
  (removedEntriesOf baseIndex targetIndex ++ addedEntriesOf baseIndex targetIndex
    ++ modifiedEntriesOfOrd ord baseIndex targetIndex).mergeSort entryLE

/-- Embedding of `Analyzer.Compare` (analyzer.go:24-100) with both
run-dependent inputs explicit: the invocation wall-clock time `now` and
the key-iteration order `ord` that Go's map `range` draws inside
`deepCompareMap`.  `Compare` is the identity-order instance. -/
def CompareOrd (ord : List String → List String) (now : Nat)
    (base target : ResourceSnapshot) : DriftReport :=
  let baseIndex := indexResources base.resources
  let targetIndex := indexResources target.resources
  let entries := driftEntriesOfOrd ord baseIndex targetIndex
  let counted := countEntries entries { totalResources := targetIndex.length }
  { timestamp := now
    baseRef := base.metadata.commitHash
    targetRef := target.metadata.commitHash
    summary := { counted with unchangedResources :=
      (baseIndex.length : Int) - counted.removedResources - counted.modifiedResources }
    entries := entries }

/-- View of a drift entry that forgets only the order of its field
diffs: the drift type, the resource, and the field diffs as a
multiset. -/
def eraseEntry (e : DriftEntry) : DriftType × Resource × Multiset FieldDiff :=
  (e.type, e.resource, (e.fieldDiffs : Multiset FieldDiff))

/-- The sort key comparison on erased entries; `entryLess` factors
through `eraseEntry` because it reads only the type and the resource. -/
def eraseLess (x y : DriftType × Resource × Multiset FieldDiff) : Bool :=
  if x.1.str ≠ y.1.str then decide (x.1.str < y.1.str)
  else decide (x.2.1.fullName < y.2.1.fullName)

/-- Total preorder on erased entries matching `entryLE`. -/
def eraseLE (x y : DriftType × Resource × Multiset FieldDiff) : Bool :=
  !(eraseLess y x)

theorem perKeyDiffOrd_none (ord : List String → List String) (p : String)
    (b t : List (String × GoVal)) (k : String) (h : mapIndex b k = none) :
    perKeyDiffOrd ord p b t k = [{ path := p ++ "." ++ k, newValue := mapIndex t k }] := by
  rw [perKeyDiffOrd.eq_def]
  split
  · rfl
  · simp_all

theorem perKeyDiffOrd_some_none (ord : List String → List String) (p : String)
    (b t : List (String × GoVal)) (k : String) (bv : GoVal)
    (hb : mapIndex b k = some bv) (ht : mapIndex t k = none) :
    perKeyDiffOrd ord p b t k = [{ path := p ++ "." ++ k, oldValue := some bv }] := by
  rw [perKeyDiffOrd.eq_def]
  split
  · simp_all
  · split
    · simp_all
    · simp_all

theorem perKeyDiffOrd_map_map (ord : List String → List String) (p : String)
    (b t : List (String × GoVal)) (k : String) (bm tm : List (String × GoVal))
    (hb : mapIndex b k = some (.mapV bm)) (ht : mapIndex t k = some (.mapV tm)) :
    perKeyDiffOrd ord p b t k
      = deepCompareKeysOrd ord (p ++ "." ++ k) bm tm (ord (allKeysOf bm tm)) := by
  rw [perKeyDiffOrd.eq_def]
  split
  · simp_all
  · split
    · simp_all
    · split
      · simp_all
      · simp_all

theorem perKeyDiffOrd_leaf (ord : List String → List String) (p : String)
    (b t : List (String × GoVal)) (k : String) (bv tv : GoVal)
    (hb : mapIndex b k = some bv) (ht : mapIndex t k = some tv)
    (hnot : ∀ bm tm, ¬(bv = .mapV bm ∧ tv = .mapV tm)) :
    perKeyDiffOrd ord p b t k =
      if deepEqual bv tv then []
      else [{ path := p ++ "." ++ k, oldValue := some bv, newValue := some tv }] := by
  rw [perKeyDiffOrd.eq_def]
  split
  · simp_all
  · split
    · simp_all
    · split
      · rename_i bm2 tm2 heq1 heq2
        rw [hb] at heq1
        rw [ht] at heq2
        injection heq1 with h1
        injection heq2 with h2
        exact absurd ⟨h1, h2⟩ (hnot bm2 tm2)
      · simp_all

theorem deepCompareKeysOrd_eq_flatMap (ord : List String → List String) (p : String)
    (b t : List (String × GoVal)) :
    ∀ ks, deepCompareKeysOrd ord p b t ks = ks.flatMap fun k => perKeyDiffOrd ord p b t k := by
  intro ks
  induction ks with
  | nil => rw [deepCompareKeysOrd, List.flatMap_nil]
  | cons k ks ih => rw [deepCompareKeysOrd, List.flatMap_cons, ih]

theorem deepCompareKeys_eq_flatMap (p : String) (b t : List (String × GoVal)) :
    ∀ ks, deepCompareKeys p b t ks = ks.flatMap fun k => perKeyDiff p b t k := by
  intro ks
  induction ks with
  | nil => rw [deepCompareKeys, List.flatMap_nil]
  | cons k ks ih => rw [deepCompareKeys, List.flatMap_cons, ih]

theorem flatMap_congr_fn {α β : Type} (l : List α) (f g : α → List β)
    (h : ∀ x ∈ l, f x = g x) : l.flatMap f = l.flatMap g := by
  induction l with
  | nil => rfl
  | cons x xs ih =>
    rw [List.flatMap_cons, List.flatMap_cons, h x (by simp),
      ih fun y hy => h y (by simp [hy])]

theorem perKeyDiffOrd_id :
    ∀ N : Nat, ∀ b t : List (String × GoVal), sizeOf b + sizeOf t ≤ N →
      ∀ p k, perKeyDiffOrd (fun ks => ks) p b t k = perKeyDiff p b t k := by
  intro N
  induction N using Nat.strong_induction_on with
  | _ N ih =>
    intro b t hN p k
    rcases hbk : mapIndex b k with _ | bv
    · rw [perKeyDiffOrd_none _ p b t k hbk, perKeyDiff_none p b t k hbk]
    · rcases htk : mapIndex t k with _ | tv
      · rw [perKeyDiffOrd_some_none _ p b t k bv hbk htk,
          perKeyDiff_some_none p b t k bv hbk htk]
      · cases hmb : bv with
        | prim s =>
          subst hmb
          rw [perKeyDiffOrd_leaf _ p b t k _ _ hbk htk (by simp),
            perKeyDiff_leaf p b t k _ _ hbk htk (by simp)]
        | mapV bm =>
          subst hmb
          cases hmt : tv with
          | prim s2 =>
            subst hmt
            rw [perKeyDiffOrd_leaf _ p b t k _ _ hbk htk (by simp),
              perKeyDiff_leaf p b t k _ _ hbk htk (by simp)]
          | mapV tm =>
            subst hmt
            have hsb := sizeOf_mapIndex hbk
            have hst := sizeOf_mapIndex htk
            rw [perKeyDiffOrd_map_map _ p b t k bm tm hbk htk,
              perKeyDiff_map_map p b t k bm tm hbk htk]
            rw [deepCompareKeysOrd_eq_flatMap, deepCompareKeys_eq_flatMap]
            have hsz : sizeOf bm + sizeOf tm < N := by
              simp at hsb hst
              omega
            exact flatMap_congr_fn _ _ _
              fun k2 _ => ih (sizeOf bm + sizeOf tm) hsz bm tm le_rfl (p ++ "." ++ k) k2

theorem perKeyDiffOrd_perm :
    ∀ N : Nat, ∀ b t : List (String × GoVal), sizeOf b + sizeOf t ≤ N →
      ∀ ord1 ord2 : List String → List String,
      (∀ ks, (ord1 ks).Perm ks) → (∀ ks, (ord2 ks).Perm ks) →
      ∀ p k, (perKeyDiffOrd ord1 p b t k).Perm (perKeyDiffOrd ord2 p b t k) := by
  intro N
  induction N using Nat.strong_induction_on with
  | _ N ih =>
    intro b t hN ord1 ord2 h1 h2 p k
    rcases hbk : mapIndex b k with _ | bv
    · rw [perKeyDiffOrd_none ord1 p b t k hbk, perKeyDiffOrd_none ord2 p b t k hbk]
    · rcases htk : mapIndex t k with _ | tv
      · rw [perKeyDiffOrd_some_none ord1 p b t k bv hbk htk,
          perKeyDiffOrd_some_none ord2 p b t k bv hbk htk]
      · cases hmb : bv with
        | prim s =>
          subst hmb
          rw [perKeyDiffOrd_leaf ord1 p b t k _ _ hbk htk (by simp),
            perKeyDiffOrd_leaf ord2 p b t k _ _ hbk htk (by simp)]
        | mapV bm =>
          subst hmb
          cases hmt : tv with
          | prim s2 =>
            subst hmt
            rw [perKeyDiffOrd_leaf ord1 p b t k _ _ hbk htk (by simp),
              perKeyDiffOrd_leaf ord2 p b t k _ _ hbk htk (by simp)]
          | mapV tm =>
            subst hmt
            have hsb := sizeOf_mapIndex hbk
            have hst := sizeOf_mapIndex htk
            rw [perKeyDiffOrd_map_map ord1 p b t k bm tm hbk htk,
              perKeyDiffOrd_map_map ord2 p b t k bm tm hbk htk]
            rw [deepCompareKeysOrd_eq_flatMap, deepCompareKeysOrd_eq_flatMap]
            have hsz : sizeOf bm + sizeOf tm < N := by
              simp at hsb hst
              omega
            refine List.Perm.trans ((h1 (allKeysOf bm tm)).flatMap_right _) ?_
            refine List.Perm.trans
              (List.Perm.flatMap_left _ fun k2 _ =>
                ih (sizeOf bm + sizeOf tm) hsz bm tm le_rfl ord1 ord2 h1 h2
                  (p ++ "." ++ k) k2) ?_
            exact ((h2 (allKeysOf bm tm)).flatMap_right _).symm

theorem deepCompareMapOrd_perm (ord1 ord2 : List String → List String)
    (h1 : ∀ ks, (ord1 ks).Perm ks) (h2 : ∀ ks, (ord2 ks).Perm ks)
    (p : String) (a b : Option (List (String × GoVal))) :
    (deepCompareMapOrd ord1 p a b).Perm (deepCompareMapOrd ord2 p a b) := by
  have hgen : ∀ (x y : List (String × GoVal)),
      (deepCompareKeysOrd ord1 p x y (ord1 (allKeysOf x y))).Perm
        (deepCompareKeysOrd ord2 p x y (ord2 (allKeysOf x y))) := by
    intro x y
    rw [deepCompareKeysOrd_eq_flatMap, deepCompareKeysOrd_eq_flatMap]
    refine List.Perm.trans ((h1 (allKeysOf x y)).flatMap_right _) ?_
    refine List.Perm.trans
      (List.Perm.flatMap_left _ fun k _ =>
        perKeyDiffOrd_perm (sizeOf x + sizeOf y) x y le_rfl ord1 ord2 h1 h2 p k) ?_
    exact ((h2 (allKeysOf x y)).flatMap_right _).symm
  rcases a with _ | ma <;> rcases b with _ | mb
  · exact List.Perm.refl _
  · exact hgen [] mb
  · exact hgen ma []
  · exact hgen ma mb

theorem compareResourcesOrd_perm (ord1 ord2 : List String → List String)
    (h1 : ∀ ks, (ord1 ks).Perm ks) (h2 : ∀ ks, (ord2 ks).Perm ks)
    (x y : Resource) :
    (compareResourcesOrd ord1 x y).Perm (compareResourcesOrd ord2 x y) := by
  rw [compareResourcesOrd, compareResourcesOrd]
  refine List.Perm.append
    (List.Perm.append (List.Perm.append (List.Perm.refl _) (List.Perm.refl _)) ?_) ?_
  · by_cases hgs : deepEqualMapOpt x.spec y.spec = true
    · rw [if_pos hgs, if_pos hgs]
    · rw [if_neg hgs, if_neg hgs]
      exact deepCompareMapOrd_perm ord1 ord2 h1 h2 ".spec" x.spec y.spec
  · by_cases hgd : deepEqualMapOpt x.data y.data = true
    · rw [if_pos hgd, if_pos hgd]
    · rw [if_neg hgd, if_neg hgd]
      exact deepCompareMapOrd_perm ord1 ord2 h1 h2 ".data" x.data y.data

theorem filterMap_map_eq_of_pointwise {α β γ : Type} (l : List α) (g1 g2 : α → Option β)
    (f : β → γ) (h : ∀ x, (g1 x).map f = (g2 x).map f) :
    (l.filterMap g1).map f = (l.filterMap g2).map f := by
  induction l with
  | nil => rfl
  | cons x xs ih =>
    have hx := h x
    rcases hg1 : g1 x with _ | b1 <;> rcases hg2 : g2 x with _ | b2 <;> rw [hg1, hg2] at hx
    · rw [List.filterMap_cons_none hg1, List.filterMap_cons_none hg2, ih]
    · simp at hx
    · simp at hx
    · rw [List.filterMap_cons_some hg1, List.filterMap_cons_some hg2,
        List.map_cons, List.map_cons, ih]
      simp only [Option.map_some'] at hx
      injection hx with hx1
      rw [hx1]

theorem modifiedEntriesOfOrd_erase (ord1 ord2 : List String → List String)
    (h1 : ∀ ks, (ord1 ks).Perm ks) (h2 : ∀ ks, (ord2 ks).Perm ks)
    (bi ti : List (String × Resource)) :
    (modifiedEntriesOfOrd ord1 bi ti).map eraseEntry
      = (modifiedEntriesOfOrd ord2 bi ti).map eraseEntry := by
  rw [modifiedEntriesOfOrd, modifiedEntriesOfOrd]
  refine filterMap_map_eq_of_pointwise bi _ _ _ ?_
  intro kv
  rcases hlk : idxLookup ti kv.1 with _ | tr
  · rfl
  · have hperm := compareResourcesOrd_perm ord1 ord2 h1 h2 kv.2 tr
    have hlen := hperm.length_eq
    show Option.map eraseEntry
        (if (compareResourcesOrd ord1 kv.2 tr).length > 0 then
          some { type := DriftType.modified, resource := tr,
                 fieldDiffs := compareResourcesOrd ord1 kv.2 tr }
        else none)
      = Option.map eraseEntry
        (if (compareResourcesOrd ord2 kv.2 tr).length > 0 then
          some { type := DriftType.modified, resource := tr,
                 fieldDiffs := compareResourcesOrd ord2 kv.2 tr }
        else none)
    by_cases hpos : (compareResourcesOrd ord1 kv.2 tr).length > 0
    · have hpos2 : (compareResourcesOrd ord2 kv.2 tr).length > 0 := by omega
      rw [if_pos hpos, if_pos hpos2]
      simp only [Option.map_some', eraseEntry]
      exact congrArg (fun m => some (DriftType.modified, tr, m))
        (Multiset.coe_eq_coe.mpr hperm)
    · have hpos2 : ¬(compareResourcesOrd ord2 kv.2 tr).length > 0 := by omega
      rw [if_neg hpos, if_neg hpos2]

theorem deepCompareMapOrd_id (p : String) (a b : Option (List (String × GoVal))) :
    deepCompareMapOrd (fun ks => ks) p a b = deepCompareMap p a b := by
  have hkeys : ∀ (bm tm : List (String × GoVal)),
      deepCompareKeysOrd (fun ks => ks) p bm tm (allKeysOf bm tm)
        = deepCompareKeys p bm tm (allKeysOf bm tm) := by
    intro bm tm
    rw [deepCompareKeysOrd_eq_flatMap, deepCompareKeys_eq_flatMap]
    exact flatMap_congr_fn _ _ _ fun k _ =>
      perKeyDiffOrd_id (sizeOf bm + sizeOf tm) bm tm le_rfl p k
  cases a <;> cases b
  · rfl
  · exact hkeys [] _
  · exact hkeys _ []
  · exact hkeys _ _

theorem compareResourcesOrd_id (x y : Resource) :
    compareResourcesOrd (fun ks => ks) x y = compareResources x y := by
  rw [compareResourcesOrd, compareResources,
    deepCompareMapOrd_id, deepCompareMapOrd_id]

theorem modifiedEntriesOfOrd_id (bi ti : List (String × Resource)) :
    modifiedEntriesOfOrd (fun ks => ks) bi ti = modifiedEntriesOf bi ti := by
  rw [modifiedEntriesOfOrd, modifiedEntriesOf]
  apply List.filterMap_congr
  intro kv _
  rcases idxLookup ti kv.1 with _ | tr
  · rfl
  · simp only [compareResourcesOrd_id]

theorem driftEntriesOfOrd_id (bi ti : List (String × Resource)) :
    driftEntriesOfOrd (fun ks => ks) bi ti = driftEntriesOf bi ti := by
  rw [driftEntriesOfOrd, driftEntriesOf, modifiedEntriesOfOrd_id]

theorem CompareOrd_id (now : Nat) (base target : ResourceSnapshot) :
    CompareOrd (fun ks => ks) now base target = Compare now base target := by
  simp only [CompareOrd, Compare, driftEntriesOfOrd_id]

theorem entryLE_erase (x y : DriftEntry) :
    entryLE x y = eraseLE (eraseEntry x) (eraseEntry y) := rfl

theorem driftEntriesOfOrd_erase (ord1 ord2 : List String → List String)
    (h1 : ∀ ks, (ord1 ks).Perm ks) (h2 : ∀ ks, (ord2 ks).Perm ks)
    (bi ti : List (String × Resource)) :
    (driftEntriesOfOrd ord1 bi ti).map eraseEntry
      = (driftEntriesOfOrd ord2 bi ti).map eraseEntry := by
  rw [driftEntriesOfOrd, driftEntriesOfOrd,
    List.map_mergeSort (fun a _ b _ => entryLE_erase a b),
    List.map_mergeSort (fun a _ b _ => entryLE_erase a b),
    List.map_append, List.map_append, List.map_append, List.map_append,
    modifiedEntriesOfOrd_erase ord1 ord2 h1 h2 bi ti]

theorem compareOrd_countP_eq (ord1 ord2 : List String → List String)
    (h1 : ∀ ks, (ord1 ks).Perm ks) (h2 : ∀ ks, (ord2 ks).Perm ks)
    (bi ti : List (String × Resource)) (ty : DriftType) :
    (driftEntriesOfOrd ord1 bi ti).countP (fun e => e.type == ty)
      = (driftEntriesOfOrd ord2 bi ti).countP (fun e => e.type == ty) := by
  have h := congrArg (List.countP fun u => u.1 == ty)
    (driftEntriesOfOrd_erase ord1 ord2 h1 h2 bi ti)
  rw [List.countP_map, List.countP_map] at h
  exact h

theorem driftSummary_fields_eq (s1 s2 : DriftSummary)
    (ht : s1.totalResources = s2.totalResources)
    (ha : s1.addedResources = s2.addedResources)
    (hr : s1.removedResources = s2.removedResources)
    (hm : s1.modifiedResources = s2.modifiedResources)
    (hu : s1.unchangedResources = s2.unchangedResources) : s1 = s2 := by
  cases s1
  cases s2
  simp_all

theorem summary_eq_of_countP (e1 e2 : List DriftEntry) (biLen tiLen : Nat)
    (hc : ∀ ty : DriftType,
      e1.countP (fun e => e.type == ty) = e2.countP (fun e => e.type == ty)) :
    ({ countEntries e1 { totalResources := tiLen } with
        unchangedResources := (biLen : Int)
          - (countEntries e1 { totalResources := tiLen }).removedResources
          - (countEntries e1 { totalResources := tiLen }).modifiedResources } : DriftSummary)
    = { countEntries e2 { totalResources := tiLen } with
        unchangedResources := (biLen : Int)
          - (countEntries e2 { totalResources := tiLen }).removedResources
          - (countEntries e2 { totalResources := tiLen }).modifiedResources } := by
  apply driftSummary_fields_eq <;>
    simp [countEntries_total, countEntries_added, countEntries_removed,
      countEntries_modified, hc DriftType.added, hc DriftType.removed,
      hc DriftType.modified]

theorem compareOrd_summary_eq (ord1 ord2 : List String → List String)
    (h1 : ∀ ks, (ord1 ks).Perm ks) (h2 : ∀ ks, (ord2 ks).Perm ks)
    (n1 n2 : Nat) (base target : ResourceSnapshot) :
    (CompareOrd ord1 n1 base target).summary = (CompareOrd ord2 n2 base target).summary :=
  summary_eq_of_countP
    (driftEntriesOfOrd ord1 (indexResources base.resources) (indexResources target.resources))
    (driftEntriesOfOrd ord2 (indexResources base.resources) (indexResources target.resources))
    (indexResources base.resources).length
    (indexResources target.resources).length
    (fun ty => compareOrd_countP_eq ord1 ord2 h1 h2 _ _ ty)

/-- C6 (amended): `Compare` has exactly two run-dependent inputs beyond
its snapshots — the wall-clock time stamped into `Timestamp`, and the
order Go's map `range` draws over `allKeys` inside `deepCompareMap`
(analyzer.go:206), which permutes the `FieldDiffs` of each MODIFIED
entry.  Everything else is determined by the two snapshots alone: for
any two invocation times and any two admissible iteration orders
(arbitrary arrangements of each key set) the reports agree on
`BaseRef`, `TargetRef`, `Summary`, and position by position on each
entry's drift type, resource and multiset of field diffs (the entry
list's own order is fixed by the final sort); `Compare` is the
identity-order instance of the order-explicit embedding. -/
theorem compare_deterministic_modulo_fieldDiff_order
    (ord1 ord2 : List String → List String)
    (h1 : ∀ ks, (ord1 ks).Perm ks) (h2 : ∀ ks, (ord2 ks).Perm ks)
    (n1 n2 : Nat) (base target : ResourceSnapshot) :
    (CompareOrd ord1 n1 base target).baseRef = (CompareOrd ord2 n2 base target).baseRef
    ∧ (CompareOrd ord1 n1 base target).targetRef = (CompareOrd ord2 n2 base target).targetRef
    ∧ (CompareOrd ord1 n1 base target).summary = (CompareOrd ord2 n2 base target).summary
    ∧ (CompareOrd ord1 n1 base target).entries.map eraseEntry
        = (CompareOrd ord2 n2 base target).entries.map eraseEntry
    ∧ CompareOrd (fun ks => ks) n1 base target = Compare n1 base target :=
  ⟨rfl, rfl,
   compareOrd_summary_eq ord1 ord2 h1 h2 n1 n2 base target,
   driftEntriesOfOrd_erase ord1 ord2 h1 h2 _ _,
   CompareOrd_id n1 base target⟩

def wOrdRes : Resource :=
  { kind := "ConfigMap", ns := "default", name := "cm",
    spec := some [("a", .prim "1"), ("b", .prim "2")] }

def wOrdBase : ResourceSnapshot :=
  { metadata := { commitHash := "b1" }, resources := [wOrdRes] }

def wOrdTarget : ResourceSnapshot :=
  { metadata := { commitHash := "t1" },
    resources := [{ wOrdRes with spec := some [("a", .prim "3"), ("b", .prim "4")] }] }

/-- The order-invariance theorem at concrete inputs: reversed key
iteration against identity iteration, distinct invocation times, on
snapshots whose shared resource differs at two spec keys. -/
theorem compare_deterministic_modulo_fieldDiff_order_witness :
    (CompareOrd (fun ks => ks.reverse) 0 wOrdBase wOrdTarget).summary
        = (CompareOrd (fun ks => ks) 1 wOrdBase wOrdTarget).summary
      ∧ (CompareOrd (fun ks => ks.reverse) 0 wOrdBase wOrdTarget).entries.map eraseEntry
        = (CompareOrd (fun ks => ks) 1 wOrdBase wOrdTarget).entries.map eraseEntry := by
  have h := compare_deterministic_modulo_fieldDiff_order (fun ks => ks.reverse)
    (fun ks => ks) (fun ks => ks.reverse_perm) (fun ks => List.Perm.refl ks)
    0 1 wOrdBase wOrdTarget
  exact ⟨h.2.2.1, h.2.2.2.1⟩

end GTM
